import Mathlib

/-!
# IR wave encoder: `wave.cpp`, `wave.h`, `necx.cpp`

A shallow embedding of the waveform encoding engine and of the extended NEC encoder.

* `double` values are modelled by the rationals they denote. Every arithmetic operation on
  doubles is the exact operation followed by `binary64.nearest`, IEEE-754 round-to-nearest-even
  at 53 bits of precision (exponent range of binary64, subnormals included).
  Only finite inputs are modelled; a result that is not a finite number (division by zero)
  is `none`. A value beyond the binary64 range, where the machine has an infinity, stays
  finite here; it is out of range for every conversion to an integer either way.
* `std::chrono::microseconds` (`duration_t`) is its tick count, an integer.
* `unsigned`, `std::uint32_t` are natural numbers; conversions into them reduce modulo `2 ^ 32`
  (integer source) or truncate toward zero (floating source).
* `Option` is used for executions with undefined behaviour (`none`): an out-of-range
  floating-to-integer conversion, an integer division by zero, an out-of-range shift.
* exceptions are values: `build` and `send` return `Except String Unit` next to the new state.
* the pigpio driver is a parameter: its constants (`pigpio`), and the values its calls return.
-/

set_option linter.dupNamespace false

namespace ir

/-! ## binary64 arithmetic on finite values -/

namespace binary64

/-- Nearest integer to `q`, ties to the even integer. -/
def roundNearestEven (q : ℚ) : ℤ :=
  let f := ⌊q⌋
  if q - f < 1 / 2 then f
  else if 1 / 2 < q - f then f + 1
  else if f % 2 = 0 then f else f + 1

/-- Exponent `e` of the binade `[2 ^ e, 2 ^ (e + 1))` holding `|x|`, not below the least normal
exponent `-1022` (subnormal numbers share the spacing of the lowest binade). -/
def binade (x : ℚ) : ℤ := max (Int.log 2 |x|) (-1022)

/-- Spacing of the binary64 numbers around `x`: a unit in the last of 53 significand bits. -/
def ulp (x : ℚ) : ℚ := 2 ^ (binade x - 52)

/-- The binary64 number nearest to `x` (round to nearest, ties to even). -/
def nearest (x : ℚ) : ℚ := roundNearestEven (x / ulp x) * ulp x

/-- Double division `a / b`; `none` when the result is not finite (`b = 0`). -/
def div (a b : ℚ) : Option ℚ := if b = 0 then none else some (nearest (a / b))

/-- Double multiplication `a * b`. -/
def mul (a b : ℚ) : ℚ := nearest (a * b)

/-- Double subtraction `a - b`. -/
def sub (a b : ℚ) : ℚ := nearest (a - b)

/-- Conversion `static_cast<double>(n)` of an integer. -/
def ofInt (n : ℤ) : ℚ := nearest n

/-- Conversion `static_cast<unsigned>(x)` / `static_cast<std::uint32_t>(x)` of a double:
the fractional part is discarded; undefined when the truncated value is not in `[0, 2 ^ 32)`. -/
def toUInt32 (x : ℚ) : Option ℕ :=
  if -1 < x ∧ x < 4294967296 then some ⌊x⌋₊ else none

end binary64

/-! ## Data model -/

/-- Tick count of a `std::chrono::microseconds`. -/
abbrev duration_t := ℤ

/-- Conversion of a signed 64-bit integer to `unsigned` / `std::uint32_t`. -/
def to_uint32 (n : ℤ) : ℕ := (n % 4294967296).toNat

/-- The pulse record of pigpio: pins to switch on, pins to switch off, delay in µs
(three `uint32_t` fields). -/
structure gpioPulse_t where
  gpioOn : ℕ
  gpioOff : ℕ
  usDelay : ℕ
deriving DecidableEq, Repr

/-- Constants of `pigpio.h` used by the code; the header is not part of the repository. -/
structure pigpio where
  PI_NO_WAVEFORM_ID : ℤ
  PI_WAVE_MODE_ONE_SHOT : ℤ
  PI_BAD_WAVE_ID : ℤ
  PI_BAD_WAVE_MODE : ℤ
deriving DecidableEq, Repr

namespace wave

/-- Logical bit encoding. -/
structure bit_encoding where
  burst_duration : duration_t
  gap_duration : duration_t
  burst_first : Bool
deriving DecidableEq, Repr

/-- Wave parameters description. -/
structure wave_parameters where
  frequency_hz : ℚ
  duty_cycle : ℚ
  leading_pulse : duration_t
  leading_gap : duration_t
  logical_one : bit_encoding
  logical_zero : bit_encoding
  trailing_pulse : Option duration_t
deriving DecidableEq, Repr

/-- Carrier frequency information: cycle time and the on / off share of each cycle. -/
structure carrier_parameters where
  one_cycle_time : duration_t
  on_state_duration : ℕ
  off_state_duration : ℕ
deriving DecidableEq, Repr

/-- The constructor `carrier_parameters::carrier_parameters(frequency_hz, duty_cycle)`:
three member initialisers, each a double expression converted to an unsigned integer. -/
def carrier_parameters.carrier_parameters (frequency_hz duty_cycle : ℚ) :
    Option carrier_parameters := do
  let cycle ← (binary64.div (binary64.ofInt 1000000) frequency_hz).bind binary64.toUInt32
  let one_cycle_time : duration_t := cycle
  let on_state_duration ←
    binary64.toUInt32 (binary64.mul (binary64.ofInt one_cycle_time) duty_cycle)
  let off_state_duration ←
    binary64.toUInt32
      (binary64.mul (binary64.ofInt one_cycle_time) (binary64.sub 1 duty_cycle))
  pure ⟨one_cycle_time, on_state_duration, off_state_duration⟩

/-- The method `num_cycles`: 64-bit quotient `duration / one_cycle_time` (truncating division,
undefined for a zero divisor), returned as `unsigned`. -/
def carrier_parameters.num_cycles (c : ir.wave.carrier_parameters) (duration : duration_t) :
    Option ℕ :=
  if c.one_cycle_time = 0 then none
  else some (to_uint32 (Int.tdiv duration c.one_cycle_time))

end wave

/-- State of a `wave` object. -/
structure wave where
  pin_bit_ : ℕ
  parameters_ : wave.wave_parameters
  carrier_ : wave.carrier_parameters
  wave_id_ : ℤ
  wave_ : List gpioPulse_t
deriving DecidableEq, Repr

namespace wave

/-- The constructor `wave::wave(pin_number, parameters)`. The shift `1 << pin_number` on `int`
is defined for `0 ≤ pin_number < 32`. -/
def wave (pi : pigpio) (pin_number : ℤ) (parameters : wave_parameters) : Option ir.wave := do
  let pin_bit_ ← if 0 ≤ pin_number ∧ pin_number < 32 then some (1 <<< pin_number.toNat) else none
  let carrier_ ←
    carrier_parameters.carrier_parameters parameters.frequency_hz parameters.duty_cycle
  pure ⟨pin_bit_, parameters, carrier_, pi.PI_NO_WAVEFORM_ID, []⟩

/-- The loop of `add_carrier_frequency`: `iterations` rounds, each pushing an on-pulse and
an off-pulse. -/
def add_carrier_frequency.loop (pin_bit_ on_duration off_duration : ℕ) :
    ℕ → List gpioPulse_t → List gpioPulse_t
  | 0, wave_ => wave_
  | iterations + 1, wave_ =>
    add_carrier_frequency.loop pin_bit_ on_duration off_duration iterations
      ((wave_ ++ [⟨pin_bit_, 0, on_duration⟩]) ++ [⟨0, pin_bit_, off_duration⟩])

/-- Add a square wave pulse burst of the given duration. -/
def add_carrier_frequency (w : ir.wave) (duration : duration_t) : Option ir.wave := do
  let iterations ← w.carrier_.num_cycles duration
  let on_duration := w.carrier_.on_state_duration
  let off_duration := w.carrier_.off_state_duration
  pure { w with
    wave_ := add_carrier_frequency.loop w.pin_bit_ on_duration off_duration iterations w.wave_ }

/-- Add a silence gap of the given duration. -/
def add_gap (w : ir.wave) (duration : duration_t) : ir.wave :=
  let pulse_duration : ℕ := to_uint32 duration
  { w with wave_ := w.wave_ ++ [⟨0, 0, pulse_duration⟩] }

/-- Append the encoding of a logical zero. -/
def add_logical_zero (w : ir.wave) : Option ir.wave :=
  if w.parameters_.logical_zero.burst_first then do
    let w ← add_carrier_frequency w w.parameters_.logical_zero.burst_duration
    pure (add_gap w w.parameters_.logical_zero.gap_duration)
  else
    add_carrier_frequency (add_gap w w.parameters_.logical_zero.gap_duration)
      w.parameters_.logical_zero.burst_duration

/-- Append the encoding of a logical one. -/
def add_logical_one (w : ir.wave) : Option ir.wave :=
  if w.parameters_.logical_one.burst_first then do
    let w ← add_carrier_frequency w w.parameters_.logical_one.burst_duration
    pure (add_gap w w.parameters_.logical_one.gap_duration)
  else
    add_carrier_frequency (add_gap w w.parameters_.logical_one.gap_duration)
      w.parameters_.logical_one.burst_duration

/-- The method `build`. `add_payload` is the virtual payload hook of the subclass and
`gpioWaveCreate` the value the driver returns for the waveform creation of this call
(`gpioWaveAddGeneric` hands the timeline to the driver and its result is discarded).
The result is the state the object is left in, with `Except.error what` when
`std::runtime_error(what)` is thrown. -/
def build (pi : pigpio) (add_payload : ir.wave → Option ir.wave) (gpioWaveCreate : ℤ)
    (w : ir.wave) : Option (Except String Unit × ir.wave) :=
  if w.wave_id_ ≠ pi.PI_NO_WAVEFORM_ID then
    some (.error "Wave already constructed", w)
  else do
    let w ← add_carrier_frequency w w.parameters_.leading_pulse
    let w := add_gap w w.parameters_.leading_gap
    let w ← add_payload w
    let w ← match w.parameters_.trailing_pulse with
      | some trailing => add_carrier_frequency w trailing
      | none => some w
    let w := { w with wave_id_ := gpioWaveCreate }
    if w.wave_id_ < 0 then
      some (.error "Wave creation failure", w)
    else
      some (.ok (), w)

/-- The method `send`, up to the driver call: the arguments handed to `gpioWaveTxSend`
(waveform id and mode) and, given the value `res` the driver returns, whether the call throws.
The polling loop that follows touches no state of the object. -/
def send (pi : pigpio) (res : ℤ) (w : ir.wave) : (ℤ × ℤ) × Except String Unit :=
  ((w.wave_id_, pi.PI_WAVE_MODE_ONE_SHOT),
    if res = pi.PI_BAD_WAVE_ID ∨ res = pi.PI_BAD_WAVE_MODE then
      .error "Error sending the wave"
    else .ok ())

end wave

/-! ## Extended NEC encoder -/

namespace necx

/-- The fixed parameters `nec_parameters`. -/
def nec_parameters : wave.wave_parameters where
  frequency_hz := 38000
  duty_cycle := 1 / 2
  leading_pulse := 9 * 1000
  leading_gap := 4500
  logical_one := ⟨562, 1686, true⟩
  logical_zero := ⟨562, 562, true⟩
  trailing_pulse := some 562

/-- The lambda `add_byte` of `add_payload`: bits `0..7` of `bits`, lowest first. -/
def add_byte (w : wave) (bits : ℕ) : Option wave :=
  (List.range 8).foldlM
    (fun w i => if bits &&& (1 <<< i) ≠ 0 then wave.add_logical_one w else wave.add_logical_zero w)
    w

/-- Bitwise complement `~x` of a `std::uint32_t`. -/
def uint32_not (x : ℕ) : ℕ := 4294967295 - x

/-- The method `necx::add_payload` for the stored code `code_`. -/
def add_payload (code_ : ℕ) (w : wave) : Option wave := do
  let w ← add_byte w (code_ >>> 16)
  let w ← add_byte w (code_ >>> 8)
  let w ← add_byte w code_
  add_byte w (uint32_not code_)

/-- The constructor `necx::necx(pin_number, code)`: base constructor, then `build()`. -/
def necx (pi : pigpio) (gpioWaveCreate : ℤ) (pin_number : ℤ) (code : ℕ) :
    Option (Except String Unit × wave) := do
  let w ← wave.wave pi pin_number nec_parameters
  wave.build pi (add_payload code) gpioWaveCreate w

end necx

/-! ## Vocabulary of the specification -/

namespace spec

/-- `n` carrier cycles: `n` times an on-pulse (pin asserted for `on_duration`) immediately
followed by an off-pulse (pin cleared for `off_duration`). -/
def carrier_cycles (pin_bit on_duration off_duration n : ℕ) : List gpioPulse_t :=
  (List.replicate n
    [(⟨pin_bit, 0, on_duration⟩ : gpioPulse_t), ⟨0, pin_bit, off_duration⟩]).flatten

/-- The pulses of a carrier burst of `duration` on the wave `w`: as many carrier cycles as
`num_cycles` counts for a nonzero cycle time. -/
def carrier (w : wave) (duration : duration_t) : List gpioPulse_t :=
  carrier_cycles w.pin_bit_ w.carrier_.on_state_duration w.carrier_.off_state_duration
    (to_uint32 (Int.tdiv duration w.carrier_.one_cycle_time))

/-- The pulse of a gap: no pin asserted, no pin cleared, the delay as stored in 32 bits. -/
def gap (duration : duration_t) : gpioPulse_t := ⟨0, 0, to_uint32 duration⟩

/-- Applying a sequence of logical bits: `true` through `add_logical_one`, `false` through
`add_logical_zero`, first bit first. -/
def add_logical_bits (bits : List Bool) (w : wave) : Option wave :=
  bits.foldlM (fun w b => if b then wave.add_logical_one w else wave.add_logical_zero w) w

/-- Bits `0..7` of `x`, least significant first. -/
def low_byte_bits (x : ℕ) : List Bool := (List.range 8).map (fun k => x.testBit k)

/-- The payload of the extended NEC encoder as the specification words it: the four groups
`code >> 16`, `code >> 8`, `code`, `~code`, each cut to 8 bits, least significant bit first. -/
def necx_payload_bits (code : ℕ) : List Bool :=
  low_byte_bits (code >>> 16) ++ low_byte_bits (code >>> 8) ++ low_byte_bits code ++
    low_byte_bits (necx.uint32_not code)

/-- The state of a wave just before its payload hook runs in a first `build`: the leading
burst and the leading gap are in the timeline. -/
def framed (w : wave) : wave :=
  { w with wave_ := w.wave_ ++ carrier w w.parameters_.leading_pulse ++
      [gap w.parameters_.leading_gap] }

/-- The pulses of the optional trailing burst. -/
def trailing (w : wave) : List gpioPulse_t :=
  match w.parameters_.trailing_pulse with
  | some t => carrier w t
  | none => []

/-- The carrier profile as the specification words it: cycle period rounded to nearest,
on-share rounded to nearest, off-share obtained by subtraction. -/
def carrier_profile (frequency_hz duty_cycle : ℚ) : wave.carrier_parameters :=
  let cycle_period : ℤ := round (1000000 / frequency_hz)
  let on_duration : ℤ := round ((cycle_period : ℚ) * duty_cycle)
  ⟨cycle_period, on_duration.toNat, (cycle_period - on_duration).toNat⟩

/-- The pulses of one logical bit under the fixed NEC profile: the carrier burst for 562 µs,
then one gap of 1686 µs for a one and of 562 µs for a zero. -/
def nec_bit (w : wave) (b : Bool) : List gpioPulse_t :=
  carrier w 562 ++ [gap (if b then 1686 else 562)]

/-- The timeline of the extended NEC frame of `code`: leading burst for 9000 µs, one gap of
4500 µs, the encodings of the payload bits in order, one trailing burst for 562 µs. -/
def nec_timeline (w : wave) (code : ℕ) : List gpioPulse_t :=
  carrier w 9000 ++ [gap 4500] ++ (necx_payload_bits code).flatMap (nec_bit w) ++ carrier w 562

/-- The object on which the `necx` constructor runs `build()`: pin bit of the pin, the fixed NEC
profile with its carrier of 26 µs (13 µs on, 13 µs off), no waveform id, empty timeline. -/
def nec_fresh (pi : pigpio) (pin_number : ℤ) : wave :=
  ⟨1 <<< pin_number.toNat, necx.nec_parameters, ⟨26, 13, 13⟩, pi.PI_NO_WAVEFORM_ID, []⟩

/-- A pulse that touches at most the pin of `pin_bit`: it asserts the pin, or clears it, or
does neither. -/
def only_pin (pin_bit : ℕ) (p : gpioPulse_t) : Prop :=
  (p.gpioOn = pin_bit ∧ p.gpioOff = 0) ∨ (p.gpioOn = 0 ∧ p.gpioOff = pin_bit) ∨
    (p.gpioOn = 0 ∧ p.gpioOff = 0)

end spec

/-! ## Call sequences

What a subclass can do with a `wave`: call the four protected appenders and `build`. The
payload hook of a `build` is itself a sequence of calls of the appenders (a hook that re-enters
`build` would run itself again without end). A `build` that throws leaves the object in the
state of the throw, and the sequence goes on from there. -/

/-- A call of one of the protected appenders. -/
inductive appender_call where
  | add_carrier_frequency (duration : duration_t)
  | add_gap (duration : duration_t)
  | add_logical_zero
  | add_logical_one
deriving DecidableEq, Repr

/-- A call of an appender or of `build`, the latter with its payload hook and the id the
driver returns. -/
inductive wave_call where
  | appender (c : appender_call)
  | build (hook : List appender_call) (gpioWaveCreate : ℤ)
deriving DecidableEq, Repr

/-- Effect of one appender call. -/
def appender_call.run (w : wave) : appender_call → Option wave
  | .add_carrier_frequency duration => wave.add_carrier_frequency w duration
  | .add_gap duration => some (wave.add_gap w duration)
  | .add_logical_zero => wave.add_logical_zero w
  | .add_logical_one => wave.add_logical_one w

/-- A payload hook given by the appender calls it makes, in order. -/
def run_hook (calls : List appender_call) (w : wave) : Option wave :=
  calls.foldlM appender_call.run w

/-- Effect of one call on the object. -/
def wave_call.run (pi : pigpio) (w : wave) : wave_call → Option wave
  | .appender c => c.run w
  | .build hook gpioWaveCreate => (wave.build pi (run_hook hook) gpioWaveCreate w).map Prod.snd

/-- Effect of a sequence of calls, first call first. -/
def run_calls (pi : pigpio) (calls : List wave_call) (w : wave) : Option wave :=
  calls.foldlM (wave_call.run pi) w

/-! ## Concrete inputs -/

namespace example_input

/-- Constants as published in the header of the pigpio library. -/
def pigpio_h : pigpio := ⟨-70, 0, -66, -33⟩

/-- A small parameter set: 200 kHz carrier, duty cycle one half. -/
def small_parameters : wave.wave_parameters where
  frequency_hz := 200000
  duty_cycle := 1 / 2
  leading_pulse := 10
  leading_gap := 7
  logical_one := ⟨5, 9, true⟩
  logical_zero := ⟨5, 3, true⟩
  trailing_pulse := some 5

/-- The same parameter set with a 2 MHz carrier. -/
def fast_parameters : wave.wave_parameters := { small_parameters with frequency_hz := 2000000 }

/-- A freshly constructed wave on pin 4 with `small_parameters`. -/
def fresh_wave : wave := ⟨16, small_parameters, ⟨5, 2, 2⟩, -70, []⟩

/-- The wave the constructor returns on pin 4 with `fast_parameters`: its cycle time is 0. -/
def fast_wave : wave := ⟨16, fast_parameters, ⟨0, 0, 0⟩, -70, []⟩

/-- The small parameter set with a duty cycle of one quarter. -/
def quarter_parameters : wave.wave_parameters := { small_parameters with duty_cycle := 1 / 4 }

/-- A freshly constructed wave on pin 4 with `quarter_parameters`. -/
def quarter_wave : wave := ⟨16, quarter_parameters, ⟨5, 1, 3⟩, -70, []⟩

/-- A short sequence of calls: a gap, then a build with a one-bit hook that the driver answers
with id 3. -/
def some_calls : List wave_call :=
  [.appender (.add_gap 7), .build [.add_logical_one] 3]

/-- The object `fresh_wave` after `some_calls`. -/
def after_calls : wave :=
  ⟨16, small_parameters, ⟨5, 2, 2⟩, 3,
    [⟨0, 0, 7⟩, ⟨16, 0, 2⟩, ⟨0, 16, 2⟩, ⟨16, 0, 2⟩, ⟨0, 16, 2⟩, ⟨0, 0, 7⟩, ⟨16, 0, 2⟩,
      ⟨0, 16, 2⟩, ⟨0, 0, 9⟩, ⟨16, 0, 2⟩, ⟨0, 16, 2⟩]⟩

/-- A one-bit payload hook. -/
def one_bit_hook (w : wave) : Option wave := wave.add_logical_one w

end example_input

end ir

/-! ## Lemmas on the timeline operations -/

namespace ir

open wave spec

theorem loop_eq_append (pin_bit on_duration off_duration : ℕ) (n : ℕ) (l : List gpioPulse_t) :
    add_carrier_frequency.loop pin_bit on_duration off_duration n l =
      l ++ carrier_cycles pin_bit on_duration off_duration n := by
  induction n generalizing l with
  | zero => simp [add_carrier_frequency.loop, carrier_cycles]
  | succ k ih =>
    rw [add_carrier_frequency.loop, ih]
    simp [carrier_cycles, List.replicate_succ]

theorem carrier_cycles_length (pin_bit on_duration off_duration n : ℕ) :
    (carrier_cycles pin_bit on_duration off_duration n).length = 2 * n := by
  induction n with
  | zero => simp [carrier_cycles]
  | succ k ih =>
    have h : carrier_cycles pin_bit on_duration off_duration (k + 1) =
        [(⟨pin_bit, 0, on_duration⟩ : gpioPulse_t), ⟨0, pin_bit, off_duration⟩] ++
          carrier_cycles pin_bit on_duration off_duration k := by
      simp [carrier_cycles, List.replicate_succ]
    rw [h, List.length_append, ih]
    simp
    omega

theorem carrier_cycles_get (pin_bit on_duration off_duration n i : ℕ) (hi : i < n) :
    (carrier_cycles pin_bit on_duration off_duration n)[2 * i]? =
        some ⟨pin_bit, 0, on_duration⟩ ∧
      (carrier_cycles pin_bit on_duration off_duration n)[2 * i + 1]? =
        some ⟨0, pin_bit, off_duration⟩ := by
  induction n generalizing i with
  | zero => omega
  | succ k ih =>
    have h : carrier_cycles pin_bit on_duration off_duration (k + 1) =
        (⟨pin_bit, 0, on_duration⟩ : gpioPulse_t) :: ⟨0, pin_bit, off_duration⟩ ::
          carrier_cycles pin_bit on_duration off_duration k := by
      simp [carrier_cycles, List.replicate_succ]
    rw [h]
    cases i with
    | zero => simp
    | succ j =>
      have hj := ih j (by omega)
      have e1 : 2 * (j + 1) = (2 * j) + 1 + 1 := by ring
      rw [e1]
      simpa using hj

theorem add_carrier_frequency_eq (w : wave) (duration : duration_t)
    (hc : w.carrier_.one_cycle_time ≠ 0) :
    add_carrier_frequency w duration =
      some { w with wave_ := w.wave_ ++ carrier w duration } := by
  simp [add_carrier_frequency, carrier_parameters.num_cycles, hc, loop_eq_append, carrier]

theorem add_gap_eq (w : wave) (duration : duration_t) :
    add_gap w duration = { w with wave_ := w.wave_ ++ [gap duration] } := rfl

end ir

/-! ## The build lifecycle -/

namespace ir

open wave spec

theorem build_fresh (pi : pigpio) (add_payload : wave → Option wave) (gpioWaveCreate : ℤ)
    (w : wave) (payload : List gpioPulse_t)
    (hfresh : w.wave_id_ = pi.PI_NO_WAVEFORM_ID)
    (hcycle : w.carrier_.one_cycle_time ≠ 0)
    (hhook : add_payload (framed w) =
      some { framed w with wave_ := (framed w).wave_ ++ payload }) :
    build pi add_payload gpioWaveCreate w =
      some (if gpioWaveCreate < 0 then .error "Wave creation failure" else .ok (),
        { w with
          wave_id_ := gpioWaveCreate
          wave_ := w.wave_ ++ carrier w w.parameters_.leading_pulse ++
            [gap w.parameters_.leading_gap] ++ payload ++ trailing w }) := by
  have hf : add_gap { w with wave_ := w.wave_ ++ carrier w w.parameters_.leading_pulse }
      w.parameters_.leading_gap = framed w := rfl
  unfold build
  rw [if_neg (by simp [hfresh]), add_carrier_frequency_eq w _ hcycle]
  simp only [Option.bind_eq_bind, Option.some_bind, hf, hhook]
  cases ht : w.parameters_.trailing_pulse with
  | none =>
    simp only [framed, trailing, ht, Option.some_bind, List.append_nil]
    split <;> rfl
  | some t =>
    simp only [framed, ht, Option.some_bind]
    rw [add_carrier_frequency_eq _ _ (by simpa using hcycle)]
    simp only [Option.some_bind, trailing, ht, carrier]
    split <;> rfl

theorem build_built (pi : pigpio) (add_payload : wave → Option wave) (gpioWaveCreate : ℤ)
    (w : wave) (hbuilt : w.wave_id_ ≠ pi.PI_NO_WAVEFORM_ID) :
    build pi add_payload gpioWaveCreate w = some (.error "Wave already constructed", w) := by
  simp [build, hbuilt]

end ir

namespace ir

open wave spec

/-- Whatever the hook does, a `build()` that gets past the lifecycle check leaves the id the
driver returned in `wave_id_`. -/
theorem build_stores_id (pi : pigpio) (add_payload : wave → Option wave) (gpioWaveCreate : ℤ)
    (w w1 : wave) (r : Except String Unit)
    (hfresh : w.wave_id_ = pi.PI_NO_WAVEFORM_ID)
    (h : build pi add_payload gpioWaveCreate w = some (r, w1)) :
    w1.wave_id_ = gpioWaveCreate := by
  unfold build at h
  rw [if_neg (by simp [hfresh])] at h
  cases h1 : add_carrier_frequency w w.parameters_.leading_pulse with
  | none => simp [h1] at h
  | some v1 =>
    simp only [h1, Option.bind_eq_bind, Option.some_bind] at h
    cases h2 : add_payload (add_gap v1 v1.parameters_.leading_gap) with
    | none => simp [h2] at h
    | some v2 =>
      simp only [h2, Option.some_bind] at h
      cases ht : v2.parameters_.trailing_pulse with
      | none =>
        simp only [ht] at h
        split at h
        · simp only [Option.some.injEq, Prod.mk.injEq] at h
          rw [← h.2]
        · simp only [Option.some.injEq, Prod.mk.injEq] at h
          rw [← h.2]
      | some t =>
        simp only [ht] at h
        cases h3 : add_carrier_frequency v2 t with
        | none => simp [h3] at h
        | some v3 =>
          simp only [h3, Option.some_bind] at h
          split at h
          · simp only [Option.some.injEq, Prod.mk.injEq] at h
            rw [← h.2]
          · simp only [Option.some.injEq, Prod.mk.injEq] at h
            rw [← h.2]

/-- The lifecycle check works as long as the driver did not return the sentinel: a second
`build()` then throws "Wave already constructed" and changes nothing. -/
theorem second_build_fails (pi : pigpio) (hook1 hook2 : wave → Option wave) (id1 id2 : ℤ)
    (w w1 : wave) (r : Except String Unit)
    (hfresh : w.wave_id_ = pi.PI_NO_WAVEFORM_ID) (hid : id1 ≠ pi.PI_NO_WAVEFORM_ID)
    (h : build pi hook1 id1 w = some (r, w1)) :
    build pi hook2 id2 w1 = some (.error "Wave already constructed", w1) :=
  build_built pi hook2 id2 w1 (by rw [build_stores_id pi hook1 id1 w w1 r hfresh h]; exact hid)

/-- When the stored id equals the sentinel, `build()` never reports the lifecycle error. -/
theorem build_sentinel_not_guarded (pi : pigpio) (add_payload : wave → Option wave)
    (gpioWaveCreate : ℤ) (w w1 : wave)
    (hfresh : w.wave_id_ = pi.PI_NO_WAVEFORM_ID) :
    build pi add_payload gpioWaveCreate w ≠ some (.error "Wave already constructed", w1) := by
  intro h
  unfold build at h
  rw [if_neg (by simp [hfresh])] at h
  cases h1 : add_carrier_frequency w w.parameters_.leading_pulse with
  | none => simp [h1] at h
  | some v1 =>
    simp only [h1, Option.bind_eq_bind, Option.some_bind] at h
    cases h2 : add_payload (add_gap v1 v1.parameters_.leading_gap) with
    | none => simp [h2] at h
    | some v2 =>
      simp only [h2, Option.some_bind] at h
      cases ht : v2.parameters_.trailing_pulse with
      | none =>
        simp only [ht] at h
        split at h
        · simp only [Option.some.injEq, Prod.mk.injEq, Except.error.injEq] at h
          exact absurd h.1 (by decide)
        · simp only [Option.some.injEq, Prod.mk.injEq] at h
          exact absurd h.1 (by simp)
      | some t =>
        simp only [ht] at h
        cases h3 : add_carrier_frequency v2 t with
        | none => simp [h3] at h
        | some v3 =>
          simp only [h3, Option.some_bind] at h
          split at h
          · simp only [Option.some.injEq, Prod.mk.injEq, Except.error.injEq] at h
            exact absurd h.1 (by decide)
          · simp only [Option.some.injEq, Prod.mk.injEq] at h
            exact absurd h.1 (by simp)

end ir

/-! ## Lemmas on binary64 rounding -/

namespace ir

namespace binary64

theorem rne_intCast (n : ℤ) : roundNearestEven (n : ℚ) = n := by
  simp [roundNearestEven]

theorem floor_le_rne (q : ℚ) : ⌊q⌋ ≤ roundNearestEven q := by
  unfold roundNearestEven
  simp only
  split_ifs <;> omega

theorem rne_le_floor_add_one (q : ℚ) : roundNearestEven q ≤ ⌊q⌋ + 1 := by
  unfold roundNearestEven
  simp only
  split_ifs <;> omega

theorem int_le_rne (q : ℚ) (m : ℤ) (h : (m : ℚ) ≤ q) : m ≤ roundNearestEven q :=
  le_trans (Int.le_floor.2 h) (floor_le_rne q)

theorem rne_le_int (q : ℚ) (m : ℤ) (h : q ≤ (m : ℚ)) : roundNearestEven q ≤ m := by
  rcases h.eq_or_lt with h | h
  · rw [h, rne_intCast]
  · have h1 : ⌊q⌋ < m := Int.floor_lt.2 h
    have h2 := rne_le_floor_add_one q
    omega

theorem abs_rne_sub_le (q : ℚ) : |(roundNearestEven q : ℚ) - q| ≤ 1 / 2 := by
  have h1 := Int.floor_le q
  have h2 := Int.lt_floor_add_one q
  unfold roundNearestEven
  simp only
  split_ifs with a b c <;> rw [abs_le] <;> constructor <;> push_cast <;> linarith

theorem ulp_pos (x : ℚ) : 0 < ulp x := by
  unfold ulp
  positivity

theorem nearest_zero : nearest 0 = 0 := by
  simp [nearest, roundNearestEven]

theorem abs_nearest_sub_le (x : ℚ) : |nearest x - x| ≤ ulp x / 2 := by
  have hu := ulp_pos x
  have h := abs_rne_sub_le (x / ulp x)
  have e : nearest x - x = ((roundNearestEven (x / ulp x) : ℚ) - x / ulp x) * ulp x := by
    unfold nearest
    field_simp
  rw [e, abs_mul, abs_of_pos hu]
  calc |(roundNearestEven (x / ulp x) : ℚ) - x / ulp x| * ulp x ≤ 1 / 2 * ulp x :=
        mul_le_mul_of_nonneg_right h hu.le
    _ = ulp x / 2 := by ring

theorem ulp_le (x : ℚ) (hx : x ≠ 0) : ulp x ≤ |x| * 2 ^ (-52 : ℤ) + 2 ^ (-1074 : ℤ) := by
  have hpos : 0 < |x| := abs_pos.2 hx
  unfold ulp binade
  rcases le_total (Int.log 2 |x|) (-1022) with h | h
  · rw [max_eq_right h, show ((-1022 : ℤ) - 52) = -1074 by norm_num]
    have : (0 : ℚ) ≤ |x| * 2 ^ (-52 : ℤ) := by positivity
    linarith
  · rw [max_eq_left h]
    have h1 : ((2 : ℕ) : ℚ) ^ Int.log 2 |x| ≤ |x| := Int.zpow_log_le_self (by norm_num) hpos
    have h2 : (2 : ℚ) ^ (Int.log 2 |x| - 52) = 2 ^ Int.log 2 |x| * 2 ^ (-52 : ℤ) := by
      rw [← zpow_add₀ (by norm_num)]
      congr 1
    rw [h2]
    have h3 : (0 : ℚ) < 2 ^ (-1074 : ℤ) := by positivity
    have h4 : (2 : ℚ) ^ Int.log 2 |x| * 2 ^ (-52 : ℤ) ≤ |x| * 2 ^ (-52 : ℤ) :=
      mul_le_mul_of_nonneg_right (by exact_mod_cast h1) (by positivity)
    linarith

/-- Error of one rounding: half a unit in the last place, relative `2 ^ -53` in the normal
range and absolute `2 ^ -1075` below it. -/
theorem abs_nearest_sub_le_rel (x : ℚ) :
    |nearest x - x| ≤ |x| * 2 ^ (-53 : ℤ) + 2 ^ (-1075 : ℤ) := by
  rcases eq_or_ne x 0 with rfl | hx
  · rw [nearest_zero]
    norm_num
  · have h1 := abs_nearest_sub_le x
    have h2 := ulp_le x hx
    have e1 : (2 : ℚ) ^ (-53 : ℤ) = 2 ^ (-52 : ℤ) / 2 := by
      rw [show (-53 : ℤ) = -52 - 1 by norm_num, zpow_sub₀ (by norm_num), zpow_one]
    have e2 : (2 : ℚ) ^ (-1075 : ℤ) = 2 ^ (-1074 : ℤ) / 2 := by
      rw [show (-1075 : ℤ) = -1074 - 1 by norm_num, zpow_sub₀ (by norm_num), zpow_one]
    rw [e1, e2]
    generalize (2 : ℚ) ^ (-52 : ℤ) = a at h2 ⊢
    generalize (2 : ℚ) ^ (-1074 : ℤ) = b at h2 ⊢
    generalize |x| = y at h2 ⊢
    have e3 : y * (a / 2) + b / 2 = (y * a + b) / 2 := by ring
    rw [e3]
    linarith

end binary64

end ir

namespace ir

namespace binary64

theorem nearest_le_grid (x : ℚ) (m : ℤ) (h : x ≤ m * ulp x) : nearest x ≤ m * ulp x := by
  have hu := ulp_pos x
  have h1 : roundNearestEven (x / ulp x) ≤ m := rne_le_int _ m ((div_le_iff₀ hu).2 h)
  unfold nearest
  exact mul_le_mul_of_nonneg_right (by exact_mod_cast h1) hu.le

theorem grid_le_nearest (x : ℚ) (m : ℤ) (h : m * ulp x ≤ x) : m * ulp x ≤ nearest x := by
  have hu := ulp_pos x
  have h1 : m ≤ roundNearestEven (x / ulp x) := int_le_rne _ m ((le_div_iff₀ hu).2 h)
  unfold nearest
  exact mul_le_mul_of_nonneg_right (by exact_mod_cast h1) hu.le

theorem log_lt_of_abs_lt (x : ℚ) (e : ℤ) (he : 0 < e) (hx : |x| < 2 ^ e) :
    Int.log 2 |x| < e := by
  rcases eq_or_ne x 0 with rfl | h0
  · simpa using he
  · exact (Int.lt_zpow_iff_log_lt (by norm_num) (abs_pos.2 h0)).1 (by exact_mod_cast hx)

theorem binade_le (x : ℚ) (hx : |x| < 2 ^ (53 : ℤ)) : binade x ≤ 52 := by
  have h := log_lt_of_abs_lt x 53 (by norm_num) hx
  unfold binade
  exact max_le (by omega) (by norm_num)

/-- Below `2 ^ 53` the spacing is a negative power of two: every integer is on the grid. -/
theorem ulp_mul_two_pow (x : ℚ) (hx : |x| < 2 ^ (53 : ℤ)) :
    ∃ k : ℕ, (2 : ℚ) ^ k * ulp x = 1 := by
  have hb := binade_le x hx
  refine ⟨(52 - binade x).toNat, ?_⟩
  unfold ulp
  rw [← zpow_natCast, Int.toNat_of_nonneg (by omega), ← zpow_add₀ (by norm_num)]
  simp

theorem nearest_le_int (x : ℚ) (n : ℤ) (hx : |x| < 2 ^ (53 : ℤ)) (h : x ≤ n) : nearest x ≤ n := by
  obtain ⟨k, hk⟩ := ulp_mul_two_pow x hx
  have e : (n : ℚ) = ((n * 2 ^ k : ℤ) : ℚ) * ulp x := by
    push_cast
    rw [mul_assoc, hk, mul_one]
  rw [e] at h ⊢
  exact nearest_le_grid x _ h

theorem int_le_nearest (x : ℚ) (n : ℤ) (hx : |x| < 2 ^ (53 : ℤ)) (h : (n : ℚ) ≤ x) :
    (n : ℚ) ≤ nearest x := by
  obtain ⟨k, hk⟩ := ulp_mul_two_pow x hx
  have e : (n : ℚ) = ((n * 2 ^ k : ℤ) : ℚ) * ulp x := by
    push_cast
    rw [mul_assoc, hk, mul_one]
  rw [e] at h ⊢
  exact grid_le_nearest x _ h

/-- A number `m * 2 ^ e` with `|m| < 2 ^ 53` and `e` not below the exponent of the smallest
subnormal is a binary64 number: rounding leaves it as it is. -/
theorem nearest_dyadic (m e : ℤ) (hm : |m| < 2 ^ 53) (he : -1074 ≤ e) :
    nearest ((m : ℚ) * 2 ^ e) = (m : ℚ) * 2 ^ e := by
  rcases eq_or_ne m 0 with rfl | hm0
  · simp [nearest_zero]
  · have h2 : (0 : ℚ) < 2 ^ e := by positivity
    have habs : |(m : ℚ) * 2 ^ e| < 2 ^ (53 + e) := by
      rw [abs_mul, abs_of_pos h2, zpow_add₀ (by norm_num)]
      apply mul_lt_mul_of_pos_right _ h2
      have : ((|m| : ℤ) : ℚ) < ((2 ^ 53 : ℤ) : ℚ) := by exact_mod_cast hm
      rw [Int.cast_abs] at this
      have e53 : (((2 : ℤ) ^ 53 : ℤ) : ℚ) = (2 : ℚ) ^ (53 : ℤ) := by norm_num
      rwa [e53] at this
    have hx0 : (m : ℚ) * 2 ^ e ≠ 0 := mul_ne_zero (by exact_mod_cast hm0) h2.ne'
    have hlog : Int.log 2 |(m : ℚ) * 2 ^ e| < 53 + e :=
      (Int.lt_zpow_iff_log_lt (by norm_num) (abs_pos.2 hx0)).1 (by exact_mod_cast habs)
    have hb : binade ((m : ℚ) * 2 ^ e) - 52 ≤ e := by
      unfold binade
      have : max (Int.log 2 |(m : ℚ) * 2 ^ e|) (-1022) ≤ 52 + e := max_le (by omega) (by omega)
      omega
    have hq : (m : ℚ) * 2 ^ e / ulp ((m : ℚ) * 2 ^ e) =
        ((m * 2 ^ (e - (binade ((m : ℚ) * 2 ^ e) - 52)).toNat : ℤ) : ℚ) := by
      unfold ulp
      push_cast
      rw [← zpow_natCast, Int.toNat_of_nonneg (by omega), mul_div_assoc,
        ← zpow_sub₀ (by norm_num)]
    unfold nearest
    rw [hq, rne_intCast]
    unfold ulp
    push_cast
    rw [← zpow_natCast, Int.toNat_of_nonneg (by omega), mul_assoc, ← zpow_add₀ (by norm_num)]
    congr 2
    ring

theorem nearest_of_dyadic (x : ℚ) (m e : ℤ) (hm : |m| < 2 ^ 53) (he : -1074 ≤ e)
    (hx : x = (m : ℚ) * 2 ^ e) : nearest x = x := by
  rw [hx]
  exact nearest_dyadic m e hm he

theorem nearest_eq_of_dyadic (x v : ℚ) (m e : ℤ) (hm : |m| < 2 ^ 53) (he : -1074 ≤ e)
    (hv : x = v) (hx : v = (m : ℚ) * 2 ^ e) : nearest x = v := by
  rw [hv, hx]
  exact nearest_dyadic m e hm he

theorem nearest_intCast (n : ℤ) (hn : |n| < 2 ^ 53) : nearest (n : ℚ) = n := by
  have h := nearest_dyadic n 0 hn (by norm_num)
  simpa using h

end binary64

end ir

namespace ir

namespace binary64

theorem toUInt32_eq_some (x : ℚ) (c : ℕ) :
    toUInt32 x = some c ↔ (-1 < x ∧ x < 4294967296) ∧ ⌊x⌋₊ = c := by
  unfold toUInt32
  by_cases h : -1 < x ∧ x < 4294967296
  · simp [h]
  · simp [h]

theorem toUInt32_of_floor (x : ℚ) (c : ℕ) (h1 : (c : ℚ) ≤ x) (h2 : x < c + 1)
    (h3 : c < 4294967296) : toUInt32 x = some c := by
  have h0 : (0 : ℚ) ≤ c := Nat.cast_nonneg c
  have h4 : (c : ℚ) + 1 ≤ 4294967296 := by exact_mod_cast h3
  rw [toUInt32_eq_some]
  refine ⟨⟨by linarith, by linarith⟩, ?_⟩
  rw [Nat.floor_eq_iff (by linarith)]
  exact ⟨h1, h2⟩

theorem toUInt32_of_neg (x : ℚ) (h1 : -1 < x) (h2 : x ≤ 0) : toUInt32 x = some 0 := by
  rw [toUInt32_eq_some]
  exact ⟨⟨h1, by linarith⟩, Nat.floor_eq_zero.2 (by linarith)⟩

/-- Rounding a value of `[0, 2 ^ 32]` moves it by less than a millionth. -/
theorem nearest_near (y : ℚ) (h0 : 0 ≤ y) (h1 : y ≤ 4294967296) :
    |nearest y - y| ≤ 1 / 1000000 := by
  have h := abs_nearest_sub_le_rel y
  rw [abs_of_nonneg h0] at h
  have e1 : (2 : ℚ) ^ (-53 : ℤ) = 1 / 9007199254740992 := by norm_num
  have e2 : (2 : ℚ) ^ (-1075 : ℤ) ≤ 1 / 9007199254740992 := by
    rw [← e1]
    exact zpow_le_zpow_right₀ (by norm_num) (by norm_num)
  rw [e1] at h
  linarith

theorem abs_lt_of_range (y : ℚ) (h0 : 0 ≤ y) (h1 : y ≤ 4294967296) : |y| < 2 ^ (53 : ℤ) := by
  rw [abs_of_nonneg h0]
  have : (2 : ℚ) ^ (53 : ℤ) = 9007199254740992 := by norm_num
  rw [this]
  linarith

end binary64

end ir

namespace ir

namespace wave

open binary64

theorem ofInt_million : binary64.ofInt 1000000 = 1000000 := by
  have h := nearest_intCast 1000000 (by norm_num)
  simpa [binary64.ofInt] using h

theorem ofInt_uint32 (c : ℕ) (hc : c < 4294967296) : binary64.ofInt (c : ℤ) = (c : ℚ) := by
  have h := nearest_intCast (c : ℤ) (by
    rw [abs_of_nonneg (by positivity)]
    have : (c : ℤ) < 4294967296 := by exact_mod_cast hc
    omega)
  simpa [binary64.ofInt] using h

theorem toUInt32_lt (x : ℚ) (c : ℕ) (h : toUInt32 x = some c) : c < 4294967296 := by
  obtain ⟨⟨h1, h2⟩, h3⟩ := (toUInt32_eq_some x c).1 h
  rcases le_or_lt x 0 with hx | hx
  · rw [← h3, Nat.floor_eq_zero.2 (by linarith)]
    norm_num
  · have h4 : ((⌊x⌋₊ : ℕ) : ℚ) ≤ x := Nat.floor_le hx.le
    rw [h3] at h4
    have : (c : ℚ) < 4294967296 := lt_of_le_of_lt h4 h2
    exact_mod_cast this

/-- The constructor, step by step: it returns exactly when the three conversions to unsigned
are defined, with their three results. -/
theorem carrier_parameters_eq_some (f d : ℚ) (cp : carrier_parameters) :
    carrier_parameters.carrier_parameters f d = some cp ↔
      f ≠ 0 ∧ ∃ c n m : ℕ,
        toUInt32 (nearest (1000000 / f)) = some c ∧
        toUInt32 (nearest ((c : ℚ) * d)) = some n ∧
        toUInt32 (nearest ((c : ℚ) * nearest (1 - d))) = some m ∧
        cp = ⟨(c : ℤ), n, m⟩ := by
  unfold carrier_parameters.carrier_parameters
  by_cases hf : f = 0
  · simp [binary64.div, hf]
  · simp only [binary64.div, ofInt_million, Option.some_bind, Option.bind_eq_bind,
      binary64.mul, binary64.sub, ne_eq, hf, not_false_eq_true, true_and, ↓reduceIte]
    constructor
    · intro h
      cases hc : toUInt32 (nearest (1000000 / f)) with
      | none => simp [hc] at h
      | some c =>
        have hc32 := toUInt32_lt _ c hc
        simp only [hc, Option.some_bind, ofInt_uint32 c hc32] at h
        cases hn : toUInt32 (nearest ((c : ℚ) * d)) with
        | none => simp [hn] at h
        | some n =>
          simp only [hn, Option.some_bind] at h
          cases hm : toUInt32 (nearest ((c : ℚ) * nearest (1 - d))) with
          | none => simp [hm] at h
          | some m =>
            simp only [hm, Option.some_bind] at h
            exact ⟨c, n, m, rfl, hn, hm, (Option.some.inj h).symm⟩
    · rintro ⟨c, n, m, h1, h2, h3, rfl⟩
      have hc32 := toUInt32_lt _ c h1
      simp only [h1, Option.some_bind, ofInt_uint32 c hc32, h2, h3]
      rfl

end wave

end ir

namespace ir

namespace wave

open binary64

theorem carrier_parameters_of_exact (f d X P D Q : ℚ) (c n m : ℕ) (hf : f ≠ 0)
    (hX : nearest (1000000 / f) = X) (hc : toUInt32 X = some c)
    (hP : nearest ((c : ℚ) * d) = P) (hn : toUInt32 P = some n)
    (hD : nearest (1 - d) = D) (hQ : nearest ((c : ℚ) * D) = Q) (hm : toUInt32 Q = some m) :
    carrier_parameters.carrier_parameters f d = some ⟨(c : ℤ), n, m⟩ := by
  rw [carrier_parameters_eq_some]
  refine ⟨hf, c, n, m, ?_, ?_, ?_, rfl⟩
  · rw [hX, hc]
  · rw [hP, hn]
  · rw [hD, hQ, hm]

/-- A value of `[0, b]` with `b` a 32-bit number rounds into `[0, b]`, so that its conversion
to unsigned is defined. -/
theorem toUInt32_nearest_of_range (y : ℚ) (b : ℕ) (h0 : 0 ≤ y) (hyb : y ≤ b)
    (hb : b ≤ 4294967295) :
    toUInt32 (nearest y) = some ⌊nearest y⌋₊ ∧ 0 ≤ nearest y ∧ nearest y ≤ b := by
  have hbq : (b : ℚ) ≤ 4294967295 := by exact_mod_cast hb
  have habs := abs_lt_of_range y h0 (by linarith)
  have hlo : ((0 : ℤ) : ℚ) ≤ nearest y := int_le_nearest y 0 habs (by simpa using h0)
  have hhi : nearest y ≤ ((b : ℤ) : ℚ) := nearest_le_int y b habs (by simpa using hyb)
  simp only [Int.cast_zero, Int.cast_natCast] at hlo hhi
  refine ⟨?_, hlo, hhi⟩
  rw [toUInt32_eq_some]
  exact ⟨⟨by linarith, by linarith⟩, rfl⟩

theorem nearest_one_sub (d : ℚ) (hd0 : 0 < d) (hd1 : d < 1) :
    0 ≤ nearest (1 - d) ∧ nearest (1 - d) ≤ 1 ∧
      nearest (1 - d) ≤ 1 - d + 1 / 4503599627370496 := by
  have h0 : 0 ≤ 1 - d := by linarith
  have habs := abs_lt_of_range (1 - d) h0 (by linarith)
  have hlo : ((0 : ℤ) : ℚ) ≤ nearest (1 - d) := int_le_nearest _ 0 habs (by simpa using h0)
  have hhi : nearest (1 - d) ≤ ((1 : ℤ) : ℚ) :=
    nearest_le_int _ 1 habs (by simp only [Int.cast_one]; linarith)
  simp only [Int.cast_zero, Int.cast_one] at hlo hhi
  refine ⟨hlo, hhi, ?_⟩
  have h := abs_nearest_sub_le_rel (1 - d)
  rw [abs_of_nonneg h0] at h
  have e1 : (2 : ℚ) ^ (-53 : ℤ) = 1 / 9007199254740992 := by norm_num
  have e2 : (2 : ℚ) ^ (-1075 : ℤ) ≤ 1 / 9007199254740992 := by
    rw [← e1]
    exact zpow_le_zpow_right₀ (by norm_num) (by norm_num)
  rw [e1] at h
  have h3 := (abs_le.1 h).2
  have h4 : (1 - d) * (1 / 9007199254740992) ≤ 1 / 9007199254740992 := by
    have : (1 - d) ≤ 1 := by linarith
    nlinarith
  linarith

/-- The two truncated shares never add up to more than the cycle. -/
theorem floor_sum_le (c : ℕ) (d : ℚ) (hc : c ≤ 4294967295) (hd0 : 0 < d) (hd1 : d < 1) :
    ⌊nearest ((c : ℚ) * d)⌋₊ + ⌊nearest ((c : ℚ) * nearest (1 - d))⌋₊ ≤ c := by
  have hcq : (c : ℚ) ≤ 4294967295 := by exact_mod_cast hc
  have hc0 : (0 : ℚ) ≤ c := Nat.cast_nonneg c
  obtain ⟨hD0, hD1, hD⟩ := nearest_one_sub d hd0 hd1
  have hy1 : 0 ≤ (c : ℚ) * d := by positivity
  have hy1b : (c : ℚ) * d ≤ c := by nlinarith
  have hy2 : 0 ≤ (c : ℚ) * nearest (1 - d) := by positivity
  have hy2b : (c : ℚ) * nearest (1 - d) ≤ c := by nlinarith
  obtain ⟨-, hP0, -⟩ := toUInt32_nearest_of_range _ c hy1 hy1b hc
  obtain ⟨-, hQ0, -⟩ := toUInt32_nearest_of_range _ c hy2 hy2b hc
  have hP := (abs_le.1 (nearest_near _ hy1 (by linarith))).2
  have hQ := (abs_le.1 (nearest_near _ hy2 (by linarith))).2
  have hfP : ((⌊nearest ((c : ℚ) * d)⌋₊ : ℕ) : ℚ) ≤ nearest ((c : ℚ) * d) := Nat.floor_le hP0
  have hfQ : ((⌊nearest ((c : ℚ) * nearest (1 - d))⌋₊ : ℕ) : ℚ) ≤
      nearest ((c : ℚ) * nearest (1 - d)) := Nat.floor_le hQ0
  have hcD : (c : ℚ) * nearest (1 - d) ≤ c * (1 - d) + 4294967295 / 4503599627370496 := by
    nlinarith
  have hsum : ((⌊nearest ((c : ℚ) * d)⌋₊ + ⌊nearest ((c : ℚ) * nearest (1 - d))⌋₊ : ℕ) : ℚ) <
      ((c + 1 : ℕ) : ℚ) := by
    push_cast
    nlinarith
  have := Nat.cast_lt.1 hsum
  omega

end wave

end ir

/-! ## Lemmas on integer conversions -/

namespace ir

open wave spec

theorem to_uint32_of_lt (n : ℤ) (h0 : 0 ≤ n) (h32 : n < 4294967296) : (to_uint32 n : ℤ) = n := by
  unfold to_uint32
  rw [Int.toNat_of_nonneg (Int.emod_nonneg _ (by norm_num)), Int.emod_eq_of_lt h0 h32]

theorem to_uint32_cast (n : ℤ) : (to_uint32 n : ℤ) = n % 4294967296 := by
  unfold to_uint32
  rw [Int.toNat_of_nonneg (Int.emod_nonneg _ (by norm_num))]

theorem floor_div_eq (d c : ℤ) (hc : 0 < c) : ⌊(d : ℚ) / (c : ℚ)⌋ = d / c := by
  obtain ⟨k, rfl⟩ := Int.eq_ofNat_of_zero_le hc.le
  exact_mod_cast Rat.floor_intCast_div_natCast d k

end ir

/-! ## Payload of the extended NEC encoder -/

namespace ir

open wave spec

theorem and_one_shiftLeft_ne_zero (bits i : ℕ) :
    bits &&& (1 <<< i) ≠ 0 ↔ bits.testBit i = true := by
  rw [Nat.one_shiftLeft, Nat.and_two_pow]
  cases bits.testBit i <;> simp

theorem add_byte_eq (w : wave) (bits : ℕ) :
    necx.add_byte w bits = add_logical_bits (low_byte_bits bits) w := by
  unfold necx.add_byte add_logical_bits low_byte_bits
  rw [List.foldlM_map]
  congr 1
  funext v i
  by_cases h : bits.testBit i = true
  · rw [if_pos ((and_one_shiftLeft_ne_zero bits i).2 h), if_pos h]
  · rw [if_neg (fun hh => h ((and_one_shiftLeft_ne_zero bits i).1 hh)), if_neg h]

theorem add_logical_bits_append (a b : List Bool) (w : wave) :
    add_logical_bits (a ++ b) w = (add_logical_bits a w).bind (add_logical_bits b) := by
  unfold add_logical_bits
  rw [List.foldlM_append]
  rfl

theorem testBit_uint32_not (code : ℕ) (hcode : code < 4294967296) (k : ℕ) (hk : k < 32) :
    (necx.uint32_not code).testBit k = !code.testBit k := by
  have h : necx.uint32_not code = 2 ^ 32 - (code + 1) := by
    unfold necx.uint32_not
    omega
  rw [h, Nat.testBit_two_pow_sub_succ (by simpa using hcode)]
  simp [hk]

theorem low_byte_bits_get (x k : ℕ) (hk : k < 8) :
    (low_byte_bits x)[k]? = some (x.testBit k) := by
  unfold low_byte_bits
  simp [hk]

theorem low_byte_bits_length (x : ℕ) : (low_byte_bits x).length = 8 := by
  simp [low_byte_bits]

/-- C1: for every 32-bit code, `necx::add_payload` performs exactly the 32 logical-bit calls of
the specification, in order: position `k` of the four groups carries bit `k` of `code >> 16`,
of `code >> 8`, of `code` and the negation of bit `k` of `code` (that is bit `k` of `~code`);
a set bit goes through `add_logical_one`, a clear bit through `add_logical_zero`. -/
theorem necx_add_payload_bits (code : ℕ) (hcode : code < 4294967296) (w : wave) :
    necx.add_payload code w = add_logical_bits (necx_payload_bits code) w ∧
      (necx_payload_bits code).length = 32 ∧
      ∀ k, k < 8 →
        (necx_payload_bits code)[k]? = some ((code >>> 16).testBit k) ∧
        (necx_payload_bits code)[8 + k]? = some ((code >>> 8).testBit k) ∧
        (necx_payload_bits code)[16 + k]? = some (code.testBit k) ∧
        (necx_payload_bits code)[24 + k]? = some ((necx.uint32_not code).testBit k) ∧
        (necx.uint32_not code).testBit k = !code.testBit k := by
  refine ⟨?_, ?_, ?_⟩
  · unfold necx.add_payload necx_payload_bits
    simp only [add_logical_bits_append, add_byte_eq, Option.bind_eq_bind, Option.bind_assoc]
  · simp [necx_payload_bits, low_byte_bits_length]
  · intro k hk
    have l1 := low_byte_bits_length (code >>> 16)
    have l2 := low_byte_bits_length (code >>> 8)
    have l3 := low_byte_bits_length code
    have l4 := low_byte_bits_length (necx.uint32_not code)
    refine ⟨?_, ?_, ?_, ?_, testBit_uint32_not code hcode k (by omega)⟩
    · unfold necx_payload_bits
      rw [List.getElem?_append_left (by simp [l1, l2, l3]; omega),
        List.getElem?_append_left (by simp [l1, l2]; omega),
        List.getElem?_append_left (by omega)]
      exact low_byte_bits_get _ k hk
    · unfold necx_payload_bits
      rw [List.getElem?_append_left (by simp [l1, l2, l3]; omega),
        List.getElem?_append_left (by simp [l1, l2]; omega),
        List.getElem?_append_right (by omega), l1]
      simpa using low_byte_bits_get (code >>> 8) k hk
    · unfold necx_payload_bits
      rw [List.getElem?_append_left (by simp [l1, l2, l3]; omega),
        List.getElem?_append_right (by simp [l1, l2])]
      simpa [l1, l2] using low_byte_bits_get code k hk
    · unfold necx_payload_bits
      rw [List.getElem?_append_right (by simp [l1, l2, l3])]
      simpa [l1, l2, l3] using low_byte_bits_get (necx.uint32_not code) k hk

theorem necx_add_payload_bits_witness :
    (0x81387 : ℕ) < 4294967296 ∧
      necx.add_payload 0x81387 example_input.fresh_wave =
        add_logical_bits (necx_payload_bits 0x81387) example_input.fresh_wave ∧
      (necx_payload_bits 0x81387).length = 32 :=
  ⟨by decide,
    (necx_add_payload_bits 0x81387 (by decide) example_input.fresh_wave).1,
    (necx_add_payload_bits 0x81387 (by decide) example_input.fresh_wave).2.1⟩

end ir

/-! ## Claims on the builder -/

namespace ir

open wave spec

/-- C2 (amended): on a fresh wave with an empty timeline and a carrier whose cycle time is not
zero, for every payload hook that returns after appending the pulses
`payload`, the first `build()` returns or throws with the timeline
`carrier(leading_pulse) ++ [gap(leading_gap)] ++ payload ++ carrier(trailing_pulse)`, the last
part only when a trailing pulse is present, and nothing else. -/
theorem build_first_timeline (pi : pigpio) (add_payload : wave → Option wave)
    (gpioWaveCreate : ℤ) (w : wave) (payload : List gpioPulse_t)
    (hfresh : w.wave_id_ = pi.PI_NO_WAVEFORM_ID) (hempty : w.wave_ = [])
    (hcycle : w.carrier_.one_cycle_time ≠ 0)
    (hhook : add_payload (framed w) =
      some { framed w with wave_ := (framed w).wave_ ++ payload }) :
    ∃ r w1, build pi add_payload gpioWaveCreate w = some (r, w1) ∧
      w1.wave_ = carrier w w.parameters_.leading_pulse ++ [gap w.parameters_.leading_gap] ++
        payload ++
        (match w.parameters_.trailing_pulse with
          | some t => carrier w t
          | none => []) := by
  refine ⟨_, _, build_fresh pi add_payload gpioWaveCreate w payload hfresh hcycle hhook, ?_⟩
  simp only [hempty, List.nil_append, trailing]

theorem build_first_timeline_witness :
    example_input.fresh_wave.wave_id_ = example_input.pigpio_h.PI_NO_WAVEFORM_ID ∧
      example_input.fresh_wave.wave_ = [] ∧
      example_input.fresh_wave.carrier_.one_cycle_time ≠ 0 ∧
      example_input.one_bit_hook (framed example_input.fresh_wave) =
        some { framed example_input.fresh_wave with
          wave_ := (framed example_input.fresh_wave).wave_ ++
            [⟨16, 0, 2⟩, ⟨0, 16, 2⟩, ⟨0, 0, 9⟩] } ∧
      ∃ r w1, build example_input.pigpio_h example_input.one_bit_hook 3
          example_input.fresh_wave = some (r, w1) ∧
        w1.wave_ = carrier example_input.fresh_wave 10 ++ [gap 7] ++
          [⟨16, 0, 2⟩, ⟨0, 16, 2⟩, ⟨0, 0, 9⟩] ++ carrier example_input.fresh_wave 5 :=
  ⟨rfl, rfl, by decide, rfl,
    build_first_timeline example_input.pigpio_h example_input.one_bit_hook 3
      example_input.fresh_wave [⟨16, 0, 2⟩, ⟨0, 16, 2⟩, ⟨0, 0, 9⟩] rfl rfl (by decide) rfl⟩

/-- C3 (failing input): the first `build()` gets `PI_NO_WAVEFORM_ID` from the driver and throws
"Wave creation failure"; the stored id then still equals the sentinel, so a second `build()` is
not stopped by the lifecycle check: it appends the whole frame a second time and stores the new
id. -/
theorem second_build_after_no_waveform_id :
    ∃ w1 w2,
      build example_input.pigpio_h example_input.one_bit_hook (-70) example_input.fresh_wave =
        some (.error "Wave creation failure", w1) ∧
      build example_input.pigpio_h example_input.one_bit_hook 0 w1 = some (.ok (), w2) ∧
      w1.wave_.length = 10 ∧ w2.wave_.length = 20 ∧ w2.wave_ = w1.wave_ ++ w1.wave_ ∧
      w1.wave_id_ = -70 ∧ w2.wave_id_ = 0 :=
  ⟨_, _, rfl, rfl, rfl, rfl, rfl, rfl, rfl⟩

/-- C4: on the first `build()` of a wave (cycle time not zero, payload hook returning), the
call throws "Wave creation failure" exactly when the driver returns a negative id; for a
non-negative id it returns normally, the wave stores that id, and `send()` hands that id to the
driver. -/
theorem build_first_result (pi : pigpio) (add_payload : wave → Option wave)
    (gpioWaveCreate : ℤ) (w : wave) (payload : List gpioPulse_t)
    (hfresh : w.wave_id_ = pi.PI_NO_WAVEFORM_ID)
    (hcycle : w.carrier_.one_cycle_time ≠ 0)
    (hhook : add_payload (framed w) =
      some { framed w with wave_ := (framed w).wave_ ++ payload }) :
    ((∃ w1, build pi add_payload gpioWaveCreate w =
        some (.error "Wave creation failure", w1)) ↔ gpioWaveCreate < 0) ∧
      (0 ≤ gpioWaveCreate →
        ∃ w1, build pi add_payload gpioWaveCreate w = some (.ok (), w1) ∧
          w1.wave_id_ = gpioWaveCreate ∧
          ∀ res, (send pi res w1).1 = (gpioWaveCreate, pi.PI_WAVE_MODE_ONE_SHOT)) := by
  have hb := build_fresh pi add_payload gpioWaveCreate w payload hfresh hcycle hhook
  constructor
  · constructor
    · rintro ⟨w1, h1⟩
      by_contra hneg
      rw [hb, if_neg hneg] at h1
      simp at h1
    · intro hneg
      rw [hb, if_pos hneg]
      exact ⟨_, rfl⟩
  · intro hpos
    rw [hb, if_neg (not_lt.mpr hpos)]
    exact ⟨_, rfl, rfl, fun _ => rfl⟩

theorem build_first_result_witness :
    example_input.fresh_wave.wave_id_ = example_input.pigpio_h.PI_NO_WAVEFORM_ID ∧
      example_input.fresh_wave.carrier_.one_cycle_time ≠ 0 ∧
      ((∃ w1, build example_input.pigpio_h example_input.one_bit_hook 3
          example_input.fresh_wave = some (.error "Wave creation failure", w1)) ↔
        (3 : ℤ) < 0) ∧
      ((0 : ℤ) ≤ 3 →
        ∃ w1, build example_input.pigpio_h example_input.one_bit_hook 3
            example_input.fresh_wave = some (.ok (), w1) ∧
          w1.wave_id_ = 3 ∧
          ∀ res, (send example_input.pigpio_h res w1).1 =
            (3, example_input.pigpio_h.PI_WAVE_MODE_ONE_SHOT)) :=
  ⟨rfl, by decide,
    build_first_result example_input.pigpio_h example_input.one_bit_hook 3
      example_input.fresh_wave [⟨16, 0, 2⟩, ⟨0, 16, 2⟩, ⟨0, 0, 9⟩] rfl (by decide) rfl⟩

end ir

/-! ## Claims on the carrier parameters -/

namespace ir

open wave spec binary64

theorem carrier_parameters_returns (f d : ℚ) (hf : 0 < f) (hq : 1000000 / f ≤ 4294967295)
    (hd0 : 0 < d) (hd1 : d < 1) :
    ∃ c n m : ℕ, carrier_parameters.carrier_parameters f d = some ⟨(c : ℤ), n, m⟩ ∧
      c = ⌊nearest (1000000 / f)⌋₊ ∧ n = ⌊nearest ((c : ℚ) * d)⌋₊ ∧
      m = ⌊nearest ((c : ℚ) * nearest (1 - d))⌋₊ := by
  have hx0 : (0 : ℚ) ≤ 1000000 / f := by positivity
  obtain ⟨hX, hX0, hXb⟩ :=
    toUInt32_nearest_of_range (1000000 / f) 4294967295 hx0 (by simpa using hq) le_rfl
  have hcX : ((⌊nearest (1000000 / f)⌋₊ : ℕ) : ℚ) ≤ nearest (1000000 / f) := Nat.floor_le hX0
  have hc : ⌊nearest (1000000 / f)⌋₊ ≤ 4294967295 := by
    have : ((⌊nearest (1000000 / f)⌋₊ : ℕ) : ℚ) ≤ ((4294967295 : ℕ) : ℚ) := le_trans hcX hXb
    exact_mod_cast this
  generalize ⌊nearest (1000000 / f)⌋₊ = c at hX hc
  have hc0 : (0 : ℚ) ≤ c := Nat.cast_nonneg c
  obtain ⟨hD0, hD1, -⟩ := nearest_one_sub d hd0 hd1
  obtain ⟨hP, -, -⟩ := toUInt32_nearest_of_range ((c : ℚ) * d) c (by positivity)
    (by nlinarith) hc
  obtain ⟨hQ, -, -⟩ := toUInt32_nearest_of_range ((c : ℚ) * nearest (1 - d)) c (by positivity)
    (by nlinarith) hc
  exact ⟨c, _, _, (carrier_parameters_eq_some f d _).2 ⟨hf.ne', c, _, _, hX, hP, hQ, rfl⟩,
    rfl, rfl, rfl⟩

theorem carrier_parameters_sum_le (f d : ℚ) (cp : carrier_parameters) (hd0 : 0 < d)
    (hd1 : d < 1) (h : carrier_parameters.carrier_parameters f d = some cp) :
    (cp.on_state_duration : ℤ) + cp.off_state_duration ≤ cp.one_cycle_time := by
  obtain ⟨-, c, n, m, hc, hn, hm, rfl⟩ := (carrier_parameters_eq_some f d cp).1 h
  have hc32 := toUInt32_lt _ c hc
  have h1 := ((toUInt32_eq_some _ n).1 hn).2
  have h2 := ((toUInt32_eq_some _ m).1 hm).2
  have h3 := floor_sum_le c d (by omega) hd0 hd1
  rw [h1, h2] at h3
  show (n : ℤ) + (m : ℤ) ≤ (c : ℤ)
  exact_mod_cast h3

/-- C5 (counterexample): at 200 kHz with duty cycle 1/4 the cycle is 5 µs, the on-share
`trunc(1.25) = 1` and the off-share `trunc(3.75) = 3`: they add up to 4, not 5. -/
theorem carrier_sum_counterexample :
    (0 : ℚ) < 200000 ∧ (0 : ℚ) < 1 / 4 ∧ (1 / 4 : ℚ) < 1 ∧
      ∃ cp, carrier_parameters.carrier_parameters 200000 (1 / 4) = some cp ∧
        cp = ⟨5, 1, 3⟩ ∧
        (cp.on_state_duration : ℤ) + cp.off_state_duration ≠ cp.one_cycle_time := by
  refine ⟨by norm_num, by norm_num, by norm_num, _,
    carrier_parameters_of_exact 200000 (1 / 4) 5 (5 / 4) (3 / 4) (15 / 4) 5 1 3 (by norm_num)
      (nearest_eq_of_dyadic _ _ 5 0 (by norm_num) (by norm_num) (by norm_num) (by norm_num))
      (toUInt32_of_floor _ _ (by norm_num) (by norm_num) (by norm_num))
      (nearest_eq_of_dyadic _ _ 5 (-2) (by norm_num) (by norm_num) (by norm_num) (by norm_num))
      (toUInt32_of_floor _ _ (by norm_num) (by norm_num) (by norm_num))
      (nearest_eq_of_dyadic _ _ 3 (-2) (by norm_num) (by norm_num) (by norm_num) (by norm_num))
      (nearest_eq_of_dyadic _ _ 15 (-2) (by norm_num) (by norm_num) (by norm_num) (by norm_num))
      (toUInt32_of_floor _ _ (by norm_num) (by norm_num) (by norm_num)),
    rfl, by decide⟩

/-- C5 (amended): for every `frequency_hz > 0` and every `duty_cycle` strictly between 0 and 1,
the parameters the constructor computes satisfy
`on_state_duration + off_state_duration ≤ one_cycle_time` (in microseconds); and the
constructor returns whenever the cycle time `1000000 / frequency_hz` fits unsigned 32 bits. -/
theorem carrier_sum_le (f d : ℚ) (hf : 0 < f) (hd0 : 0 < d) (hd1 : d < 1) :
    (∀ cp, carrier_parameters.carrier_parameters f d = some cp →
        (cp.on_state_duration : ℤ) + cp.off_state_duration ≤ cp.one_cycle_time) ∧
      (1000000 / f ≤ 4294967295 → ∃ cp, carrier_parameters.carrier_parameters f d = some cp) := by
  refine ⟨fun cp h => carrier_parameters_sum_le f d cp hd0 hd1 h, fun hq => ?_⟩
  obtain ⟨c, n, m, h, -⟩ := carrier_parameters_returns f d hf hq hd0 hd1
  exact ⟨_, h⟩

theorem carrier_sum_le_witness :
    (0 : ℚ) < 200000 ∧ (0 : ℚ) < 1 / 4 ∧ (1 / 4 : ℚ) < 1 ∧
      ((∀ cp, carrier_parameters.carrier_parameters 200000 (1 / 4) = some cp →
          (cp.on_state_duration : ℤ) + cp.off_state_duration ≤ cp.one_cycle_time) ∧
        ((1000000 : ℚ) / 200000 ≤ 4294967295 →
          ∃ cp, carrier_parameters.carrier_parameters 200000 (1 / 4) = some cp)) :=
  ⟨by norm_num, by norm_num, by norm_num,
    carrier_sum_le 200000 (1 / 4) (by norm_num) (by norm_num) (by norm_num)⟩

end ir

namespace ir

open wave spec binary64

theorem round_of_floor (x : ℚ) (k : ℤ) (h1 : (k : ℚ) ≤ x + 1 / 2) (h2 : x + 1 / 2 < k + 1) :
    round x = k := by
  rw [round_eq, Int.floor_eq_iff]
  exact ⟨h1, h2⟩

theorem carrier_profile_example : carrier_profile 640000 (1 / 2) = ⟨2, 1, 1⟩ := by
  have h1 : round ((1000000 : ℚ) / 640000) = 2 :=
    round_of_floor _ 2 (by norm_num) (by norm_num)
  have h2 : round (((2 : ℤ) : ℚ) * (1 / 2)) = 1 :=
    round_of_floor _ 1 (by norm_num) (by norm_num)
  unfold carrier_profile
  simp only [h1, h2]
  rfl

/-- C6 (counterexample): at 640 kHz with duty cycle 1/2 the quotient `1000000 / 640000` is
1.5625; the constructor stores its truncation 1 where rounding to nearest gives 2, and the
on-share `trunc(0.5) = 0` and off-share `trunc(0.5) = 0` where the specification has 1 and
`2 - 1 = 1`; the stored off-share is not the cycle minus the on-share. -/
theorem carrier_rounding_counterexample :
    ∃ cp, carrier_parameters.carrier_parameters 640000 (1 / 2) = some cp ∧
      cp = ⟨1, 0, 0⟩ ∧ carrier_profile 640000 (1 / 2) = ⟨2, 1, 1⟩ ∧
      cp ≠ carrier_profile 640000 (1 / 2) ∧
      cp.one_cycle_time ≠ round ((1000000 : ℚ) / 640000) ∧
      (cp.off_state_duration : ℤ) ≠ cp.one_cycle_time - cp.on_state_duration := by
  have h1 : round ((1000000 : ℚ) / 640000) = 2 :=
    round_of_floor _ 2 (by norm_num) (by norm_num)
  refine ⟨_,
    carrier_parameters_of_exact 640000 (1 / 2) (25 / 16) (1 / 2) (1 / 2) (1 / 2) 1 0 0
      (by norm_num)
      (nearest_eq_of_dyadic _ _ 25 (-4) (by norm_num) (by norm_num) (by norm_num) (by norm_num))
      (toUInt32_of_floor _ _ (by norm_num) (by norm_num) (by norm_num))
      (nearest_eq_of_dyadic _ _ 1 (-1) (by norm_num) (by norm_num) (by norm_num) (by norm_num))
      (toUInt32_of_floor _ _ (by norm_num) (by norm_num) (by norm_num))
      (nearest_eq_of_dyadic _ _ 1 (-1) (by norm_num) (by norm_num) (by norm_num) (by norm_num))
      (nearest_eq_of_dyadic _ _ 1 (-1) (by norm_num) (by norm_num) (by norm_num) (by norm_num))
      (toUInt32_of_floor _ _ (by norm_num) (by norm_num) (by norm_num)),
    rfl, carrier_profile_example, ?_, ?_, by decide⟩
  · rw [carrier_profile_example]
    decide
  · rw [h1]
    decide

/-- C6 (amended): for every `frequency_hz > 0` whose cycle time `1000000 / frequency_hz` fits
unsigned 32 bits and every `duty_cycle` strictly between 0 and 1, the constructor returns with
`one_cycle_time = trunc(1000000 / frequency_hz)`,
`on_state_duration = trunc(one_cycle_time * duty_cycle)` and
`off_state_duration = trunc(one_cycle_time * (1 - duty_cycle))`: each expression is evaluated
in double precision and truncated toward zero on its own. -/
theorem carrier_parameters_truncate (f d : ℚ) (hf : 0 < f) (hq : 1000000 / f ≤ 4294967295)
    (hd0 : 0 < d) (hd1 : d < 1) :
    ∃ cp, carrier_parameters.carrier_parameters f d = some cp ∧
      cp.one_cycle_time = (⌊nearest (1000000 / f)⌋₊ : ℤ) ∧
      cp.on_state_duration = ⌊nearest ((cp.one_cycle_time : ℚ) * d)⌋₊ ∧
      cp.off_state_duration = ⌊nearest ((cp.one_cycle_time : ℚ) * nearest (1 - d))⌋₊ := by
  obtain ⟨c, n, m, h, hc, hn, hm⟩ := carrier_parameters_returns f d hf hq hd0 hd1
  refine ⟨_, h, ?_, ?_, ?_⟩
  · simp only [hc]
  · simpa using hn
  · simpa using hm

theorem carrier_parameters_truncate_witness :
    (0 : ℚ) < 38000 ∧ (1000000 : ℚ) / 38000 ≤ 4294967295 ∧ (0 : ℚ) < 1 / 2 ∧ (1 / 2 : ℚ) < 1 ∧
      ∃ cp, carrier_parameters.carrier_parameters 38000 (1 / 2) = some cp ∧
        cp.one_cycle_time = (⌊nearest (1000000 / 38000)⌋₊ : ℤ) ∧
        cp.on_state_duration = ⌊nearest ((cp.one_cycle_time : ℚ) * (1 / 2))⌋₊ ∧
        cp.off_state_duration =
          ⌊nearest ((cp.one_cycle_time : ℚ) * nearest (1 - 1 / 2))⌋₊ :=
  ⟨by norm_num, by norm_num, by norm_num, by norm_num,
    carrier_parameters_truncate 38000 (1 / 2) (by norm_num) (by norm_num) (by norm_num)
      (by norm_num)⟩

end ir

namespace ir

open wave spec binary64

theorem one_le_nearest (x : ℚ) (h : 1 ≤ x) : 1 ≤ nearest x := by
  rcases lt_or_le |x| (2 ^ (53 : ℤ)) with hx | hx
  · simpa using int_le_nearest x 1 hx (by simpa using h)
  · have h0 : 0 ≤ x := by linarith
    rw [abs_of_nonneg h0] at hx
    have e0 : (2 : ℚ) ^ (53 : ℤ) = 9007199254740992 := by norm_num
    rw [e0] at hx
    have hr := abs_nearest_sub_le_rel x
    rw [abs_of_nonneg h0] at hr
    have e1 : (2 : ℚ) ^ (-53 : ℤ) = 1 / 9007199254740992 := by norm_num
    have e2 : (2 : ℚ) ^ (-1075 : ℤ) ≤ 1 / 9007199254740992 := by
      rw [← e1]
      exact zpow_le_zpow_right₀ (by norm_num) (by norm_num)
    rw [e1] at hr
    have h3 := (abs_le.1 hr).1
    linarith

theorem small_carrier :
    carrier_parameters.carrier_parameters 200000 (1 / 2) = some ⟨5, 2, 2⟩ :=
  carrier_parameters_of_exact 200000 (1 / 2) 5 (5 / 2) (1 / 2) (5 / 2) 5 2 2 (by norm_num)
    (nearest_eq_of_dyadic _ _ 5 0 (by norm_num) (by norm_num) (by norm_num) (by norm_num))
    (toUInt32_of_floor _ _ (by norm_num) (by norm_num) (by norm_num))
    (nearest_eq_of_dyadic _ _ 5 (-1) (by norm_num) (by norm_num) (by norm_num) (by norm_num))
    (toUInt32_of_floor _ _ (by norm_num) (by norm_num) (by norm_num))
    (nearest_eq_of_dyadic _ _ 1 (-1) (by norm_num) (by norm_num) (by norm_num) (by norm_num))
    (nearest_eq_of_dyadic _ _ 5 (-1) (by norm_num) (by norm_num) (by norm_num) (by norm_num))
    (toUInt32_of_floor _ _ (by norm_num) (by norm_num) (by norm_num))

/-- The example wave is the one the constructor returns for pin 4 and `small_parameters`. -/
theorem fresh_wave_constructed :
    wave.wave example_input.pigpio_h 4 example_input.small_parameters =
      some example_input.fresh_wave := by
  have h := small_carrier
  unfold wave.wave
  simp only [example_input.small_parameters, h]
  rfl

theorem zero_carrier (f : ℚ) (d : ℚ) (m : ℤ) (hf : f ≠ 0) (hm : |m| < 2 ^ 53)
    (hx : 1000000 / f = (m : ℚ) * 2 ^ (-1 : ℤ)) (h1 : -1 < (m : ℚ) * 2 ^ (-1 : ℤ))
    (h2 : (m : ℚ) * 2 ^ (-1 : ℤ) < 1) :
    carrier_parameters.carrier_parameters f d = some ⟨0, 0, 0⟩ := by
  have hz : toUInt32 0 = some 0 := toUInt32_of_floor 0 0 (by norm_num) (by norm_num) (by norm_num)
  have hc : toUInt32 ((m : ℚ) * 2 ^ (-1 : ℤ)) = some 0 := by
    rcases le_or_lt ((m : ℚ) * 2 ^ (-1 : ℤ)) 0 with h | h
    · exact toUInt32_of_neg _ h1 h
    · exact toUInt32_of_floor _ 0 (by simpa using h.le) (by simpa using h2) (by norm_num)
  exact carrier_parameters_of_exact f d _ 0 (nearest (1 - d)) 0 0 0 0 hf
    (nearest_eq_of_dyadic _ _ m (-1) hm (by norm_num) hx rfl) hc
    (by simp [nearest_zero]) hz rfl (by simp [nearest_zero]) hz

/-- C7 (counterexample): nothing is validated. A carrier of 2 MHz, and one of -2 MHz, is
constructed with a cycle time of 0 µs, for which `num_cycles` is a division by zero; the duty
cycles 1 and 0 are accepted; and the wave constructor returns a wave with a zero cycle time. -/
theorem carrier_validation_counterexample :
    carrier_parameters.carrier_parameters 2000000 (1 / 2) = some ⟨0, 0, 0⟩ ∧
      (⟨0, 0, 0⟩ : carrier_parameters).num_cycles 9000 = none ∧
      carrier_parameters.carrier_parameters (-2000000) (1 / 2) = some ⟨0, 0, 0⟩ ∧
      carrier_parameters.carrier_parameters 200000 1 = some ⟨5, 5, 0⟩ ∧
      carrier_parameters.carrier_parameters 200000 0 = some ⟨5, 0, 5⟩ ∧
      ∃ w, wave.wave example_input.pigpio_h 4 example_input.fast_parameters = some w ∧
        w.carrier_.one_cycle_time = 0 := by
  have hfast : carrier_parameters.carrier_parameters 2000000 (1 / 2) = some ⟨0, 0, 0⟩ :=
    zero_carrier 2000000 (1 / 2) 1 (by norm_num) (by norm_num) (by norm_num) (by norm_num)
      (by norm_num)
  refine ⟨hfast, rfl, ?_, ?_, ?_, ?_⟩
  · exact zero_carrier (-2000000) (1 / 2) (-1) (by norm_num) (by norm_num) (by norm_num)
      (by norm_num) (by norm_num)
  · exact carrier_parameters_of_exact 200000 1 5 5 0 0 5 5 0 (by norm_num)
      (nearest_eq_of_dyadic _ _ 5 0 (by norm_num) (by norm_num) (by norm_num) (by norm_num))
      (toUInt32_of_floor _ _ (by norm_num) (by norm_num) (by norm_num))
      (nearest_eq_of_dyadic _ _ 5 0 (by norm_num) (by norm_num) (by norm_num) (by norm_num))
      (toUInt32_of_floor _ _ (by norm_num) (by norm_num) (by norm_num))
      (nearest_eq_of_dyadic _ _ 0 0 (by norm_num) (by norm_num) (by norm_num) (by norm_num))
      (nearest_eq_of_dyadic _ _ 0 0 (by norm_num) (by norm_num) (by norm_num) (by norm_num))
      (toUInt32_of_floor _ _ (by norm_num) (by norm_num) (by norm_num))
  · exact carrier_parameters_of_exact 200000 0 5 0 1 5 5 0 5 (by norm_num)
      (nearest_eq_of_dyadic _ _ 5 0 (by norm_num) (by norm_num) (by norm_num) (by norm_num))
      (toUInt32_of_floor _ _ (by norm_num) (by norm_num) (by norm_num))
      (nearest_eq_of_dyadic _ _ 0 0 (by norm_num) (by norm_num) (by norm_num) (by norm_num))
      (toUInt32_of_floor _ _ (by norm_num) (by norm_num) (by norm_num))
      (nearest_eq_of_dyadic _ _ 1 0 (by norm_num) (by norm_num) (by norm_num) (by norm_num))
      (nearest_eq_of_dyadic _ _ 5 0 (by norm_num) (by norm_num) (by norm_num) (by norm_num))
      (toUInt32_of_floor _ _ (by norm_num) (by norm_num) (by norm_num))
  · refine ⟨⟨16, example_input.fast_parameters, ⟨0, 0, 0⟩, -70, []⟩, ?_, rfl⟩
    unfold wave.wave
    simp only [example_input.fast_parameters, example_input.small_parameters, hfast]
    rfl

/-- C7 (amended): the constructor performs no validation and reports no error. Whenever
`0 < frequency_hz ≤ 1000000` and the construction completes, the cycle time is at least 1 µs,
so that `num_cycles` returns for every duration (no division by zero); and the construction does
complete when moreover the duty cycle is strictly between 0 and 1 and the cycle time
`1000000 / frequency_hz` fits unsigned 32 bits. -/
theorem carrier_cycle_pos (f d : ℚ) (hf : 0 < f) (hf2 : f ≤ 1000000) :
    (∀ cp, carrier_parameters.carrier_parameters f d = some cp →
        1 ≤ cp.one_cycle_time ∧ ∀ duration, ∃ n, cp.num_cycles duration = some n) ∧
      (0 < d → d < 1 → 1000000 / f ≤ 4294967295 →
        ∃ cp, carrier_parameters.carrier_parameters f d = some cp) := by
  constructor
  · intro cp h
    obtain ⟨-, c, n, m, hc, -, -, rfl⟩ := (carrier_parameters_eq_some f d cp).1 h
    have hx : (1 : ℚ) ≤ 1000000 / f := by
      rw [le_div_iff₀ hf]
      linarith
    have hX := one_le_nearest _ hx
    have hfl := ((toUInt32_eq_some _ c).1 hc).2
    have hc1 : 1 ≤ c := by
      rw [← hfl]
      exact Nat.le_floor (by simpa using hX)
    have hc2 : (1 : ℤ) ≤ (c : ℤ) := by exact_mod_cast hc1
    have hc3 : ¬ ((c : ℤ) = 0) := by omega
    refine ⟨hc2, fun duration => ⟨to_uint32 (Int.tdiv duration (c : ℤ)), ?_⟩⟩
    unfold carrier_parameters.num_cycles
    rw [if_neg hc3]
  · intro hd0 hd1 hq
    obtain ⟨c, n, m, h, -⟩ := carrier_parameters_returns f d hf hq hd0 hd1
    exact ⟨_, h⟩

theorem carrier_cycle_pos_witness :
    (0 : ℚ) < 200000 ∧ (200000 : ℚ) ≤ 1000000 ∧
      ((∀ cp, carrier_parameters.carrier_parameters 200000 (1 / 2) = some cp →
          1 ≤ cp.one_cycle_time ∧ ∀ duration, ∃ n, cp.num_cycles duration = some n) ∧
        ((0 : ℚ) < 1 / 2 → (1 / 2 : ℚ) < 1 → (1000000 : ℚ) / 200000 ≤ 4294967295 →
          ∃ cp, carrier_parameters.carrier_parameters 200000 (1 / 2) = some cp)) :=
  ⟨by norm_num, by norm_num,
    carrier_cycle_pos 200000 (1 / 2) (by norm_num) (by norm_num)⟩

end ir

/-! ## Claims on the timeline operations -/

namespace ir

open wave spec binary64

/-- C8 (counterexample): the carrier of 1 MHz has a cycle time of 1 µs; for the duration
`2 ^ 32` µs the quotient is `2 ^ 32`, and `num_cycles` returns 0. -/
theorem num_cycles_counterexample :
    ∃ cp, carrier_parameters.carrier_parameters 1000000 (1 / 2) = some cp ∧
      0 < cp.one_cycle_time ∧ (0 : ℤ) ≤ 4294967296 ∧
      cp.num_cycles 4294967296 = some 0 ∧
      ⌊((4294967296 : ℤ) : ℚ) / (cp.one_cycle_time : ℚ)⌋ = 4294967296 := by
  refine ⟨⟨1, 0, 0⟩,
    carrier_parameters_of_exact 1000000 (1 / 2) 1 (1 / 2) (1 / 2) (1 / 2) 1 0 0 (by norm_num)
      (nearest_eq_of_dyadic _ _ 1 0 (by norm_num) (by norm_num) (by norm_num) (by norm_num))
      (toUInt32_of_floor _ _ (by norm_num) (by norm_num) (by norm_num))
      (nearest_eq_of_dyadic _ _ 1 (-1) (by norm_num) (by norm_num) (by norm_num) (by norm_num))
      (toUInt32_of_floor _ _ (by norm_num) (by norm_num) (by norm_num))
      (nearest_eq_of_dyadic _ _ 1 (-1) (by norm_num) (by norm_num) (by norm_num) (by norm_num))
      (nearest_eq_of_dyadic _ _ 1 (-1) (by norm_num) (by norm_num) (by norm_num) (by norm_num))
      (toUInt32_of_floor _ _ (by norm_num) (by norm_num) (by norm_num)),
    by decide, by decide, rfl, ?_⟩
  rw [floor_div_eq _ _ (by decide)]
  rfl

/-- C8 (amended): for every carrier with `one_cycle_time > 0` and every non-negative duration
`d`, `num_cycles(d)` returns `floor(d / one_cycle_time)` reduced modulo `2 ^ 32` by the
conversion to `unsigned`; it is exactly `floor(d / one_cycle_time)` whenever that quotient
is below `2 ^ 32`. -/
theorem num_cycles_floor (c : carrier_parameters) (d : duration_t)
    (hc : 0 < c.one_cycle_time) (hd : 0 ≤ d) :
    ∃ n : ℕ, c.num_cycles d = some n ∧
      (n : ℤ) = ⌊(d : ℚ) / (c.one_cycle_time : ℚ)⌋ % 4294967296 ∧
      (⌊(d : ℚ) / (c.one_cycle_time : ℚ)⌋ < 4294967296 →
        (n : ℤ) = ⌊(d : ℚ) / (c.one_cycle_time : ℚ)⌋) := by
  have hfl := floor_div_eq d c.one_cycle_time hc
  have hq : 0 ≤ d / c.one_cycle_time := Int.ediv_nonneg hd hc.le
  refine ⟨to_uint32 (Int.tdiv d c.one_cycle_time), ?_, ?_, ?_⟩
  · simp [carrier_parameters.num_cycles, hc.ne']
  · rw [to_uint32_cast, Int.tdiv_eq_ediv hd hc.le, hfl]
  · intro hlt
    rw [hfl] at hlt ⊢
    rw [Int.tdiv_eq_ediv hd hc.le]
    exact to_uint32_of_lt _ hq hlt

theorem num_cycles_floor_witness :
    (0 : ℤ) < (⟨26, 13, 13⟩ : carrier_parameters).one_cycle_time ∧ (0 : ℤ) ≤ 9000 ∧
      ∃ n : ℕ, (⟨26, 13, 13⟩ : carrier_parameters).num_cycles 9000 = some n ∧
        (n : ℤ) = ⌊((9000 : ℤ) : ℚ) /
          (((⟨26, 13, 13⟩ : carrier_parameters).one_cycle_time : ℤ) : ℚ)⌋ % 4294967296 ∧
        (⌊((9000 : ℤ) : ℚ) /
            (((⟨26, 13, 13⟩ : carrier_parameters).one_cycle_time : ℤ) : ℚ)⌋ < 4294967296 →
          (n : ℤ) = ⌊((9000 : ℤ) : ℚ) /
            (((⟨26, 13, 13⟩ : carrier_parameters).one_cycle_time : ℤ) : ℚ)⌋) :=
  ⟨by decide, by decide, num_cycles_floor ⟨26, 13, 13⟩ 9000 (by decide) (by decide)⟩

/-- C9: for every timeline and every non-negative duration for which `num_cycles` returns `n`,
`add_carrier_frequency(duration)` keeps the existing pulses and appends exactly `2 * n` pulses:
pulse `2 * i` is (on = pin bit, off = 0, delay = on_state_duration), pulse `2 * i + 1` is
(on = 0, off = pin bit, delay = off_state_duration); a duration below one cycle time gives
`n = 0` and leaves the wave as it was. -/
theorem add_carrier_frequency_appends (w : wave) (duration : duration_t) (n : ℕ)
    (hd : 0 ≤ duration) (hn : w.carrier_.num_cycles duration = some n) :
    ∃ burst : List gpioPulse_t,
      add_carrier_frequency w duration = some { w with wave_ := w.wave_ ++ burst } ∧
      burst.length = 2 * n ∧
      (∀ i, i < n →
        burst[2 * i]? = some ⟨w.pin_bit_, 0, w.carrier_.on_state_duration⟩ ∧
        burst[2 * i + 1]? = some ⟨0, w.pin_bit_, w.carrier_.off_state_duration⟩) ∧
      (duration < w.carrier_.one_cycle_time →
        n = 0 ∧ add_carrier_frequency w duration = some w) := by
  have hc : w.carrier_.one_cycle_time ≠ 0 := by
    intro h0
    simp [carrier_parameters.num_cycles, h0] at hn
  have hn2 : to_uint32 (Int.tdiv duration w.carrier_.one_cycle_time) = n := by
    simpa [carrier_parameters.num_cycles, hc] using hn
  have hadd := add_carrier_frequency_eq w duration hc
  rw [carrier, hn2] at hadd
  refine ⟨_, hadd, carrier_cycles_length _ _ _ _, fun i hi => carrier_cycles_get _ _ _ _ i hi, ?_⟩
  intro hlt
  have hn0 : n = 0 := by
    rw [← hn2, Int.tdiv_eq_ediv hd (le_trans hd hlt.le), Int.ediv_eq_zero_of_lt hd hlt]
    rfl
  refine ⟨hn0, ?_⟩
  rw [hadd, hn0]
  simp [carrier_cycles]

theorem add_carrier_frequency_appends_witness :
    (0 : ℤ) ≤ 12 ∧ example_input.fresh_wave.carrier_.num_cycles 12 = some 2 ∧
      ∃ burst : List gpioPulse_t,
        add_carrier_frequency example_input.fresh_wave 12 =
          some { example_input.fresh_wave with
            wave_ := example_input.fresh_wave.wave_ ++ burst } ∧
        burst.length = 2 * 2 ∧
        (∀ i, i < 2 →
          burst[2 * i]? = some ⟨example_input.fresh_wave.pin_bit_, 0,
            example_input.fresh_wave.carrier_.on_state_duration⟩ ∧
          burst[2 * i + 1]? = some ⟨0, example_input.fresh_wave.pin_bit_,
            example_input.fresh_wave.carrier_.off_state_duration⟩) ∧
        ((12 : ℤ) < example_input.fresh_wave.carrier_.one_cycle_time →
          2 = 0 ∧ add_carrier_frequency example_input.fresh_wave 12 =
            some example_input.fresh_wave) :=
  ⟨by decide, rfl, add_carrier_frequency_appends example_input.fresh_wave 12 2 (by decide) rfl⟩

/-- C10 (counterexample): a gap of `2 ^ 32` µs appends one pulse whose delay is 0 µs, not the
given duration. -/
theorem add_gap_delay_counterexample :
    (0 : ℤ) ≤ 4294967296 ∧
      (add_gap example_input.fresh_wave 4294967296).wave_ =
        example_input.fresh_wave.wave_ ++ [⟨0, 0, 0⟩] ∧
      ¬ ∃ p : gpioPulse_t,
        (add_gap example_input.fresh_wave 4294967296).wave_ =
          example_input.fresh_wave.wave_ ++ [p] ∧ (p.usDelay : ℤ) = 4294967296 := by
  refine ⟨by decide, rfl, ?_⟩
  rintro ⟨p, hp, hdelay⟩
  have h : (add_gap example_input.fresh_wave 4294967296).wave_ = [⟨0, 0, 0⟩] := rfl
  rw [h] at hp
  have hp2 : p = ⟨0, 0, 0⟩ := by
    simpa [example_input.fresh_wave] using hp.symm
  rw [hp2] at hdelay
  norm_num at hdelay

/-- C10 (amended): for every timeline and every duration in `[0, 2 ^ 32)` µs, zero included,
`add_gap(duration)` keeps the existing pulses and everything else of the wave, and appends
exactly one pulse that asserts no pin, clears no pin and whose delay equals the duration. -/
theorem add_gap_appends_one (w : wave) (duration : duration_t)
    (h0 : 0 ≤ duration) (h32 : duration < 4294967296) :
    ∃ p : gpioPulse_t, add_gap w duration = { w with wave_ := w.wave_ ++ [p] } ∧
      p.gpioOn = 0 ∧ p.gpioOff = 0 ∧ (p.usDelay : ℤ) = duration :=
  ⟨gap duration, add_gap_eq w duration, rfl, rfl, to_uint32_of_lt duration h0 h32⟩

theorem add_gap_appends_one_witness :
    (0 : ℤ) ≤ 0 ∧ (0 : ℤ) < 4294967296 ∧
      ∃ p : gpioPulse_t,
        add_gap example_input.fresh_wave 0 =
          { example_input.fresh_wave with wave_ := example_input.fresh_wave.wave_ ++ [p] } ∧
        p.gpioOn = 0 ∧ p.gpioOff = 0 ∧ (p.usDelay : ℤ) = 0 :=
  ⟨by decide, by decide, add_gap_appends_one example_input.fresh_wave 0 (by decide) (by decide)⟩

end ir

/-! ## Claims on the extended NEC frame -/

namespace ir

open wave spec binary64

theorem necx_add_payload_eq (code : ℕ) (w : wave) :
    necx.add_payload code w = add_logical_bits (necx_payload_bits code) w := by
  unfold necx.add_payload necx_payload_bits
  simp only [add_logical_bits_append, add_byte_eq, Option.bind_eq_bind, Option.bind_assoc]

theorem low_byte_bits_congr (x y : ℕ) (h : ∀ k, k < 8 → x.testBit k = y.testBit k) :
    low_byte_bits x = low_byte_bits y := by
  unfold low_byte_bits
  apply List.map_congr_left
  intro k hk
  exact h k (List.mem_range.1 hk)

theorem testBit_of_and_eq (c1 c2 : ℕ) (h : c1 &&& 0xFFFFFF = c2 &&& 0xFFFFFF) (j : ℕ)
    (hj : j < 24) : c1.testBit j = c2.testBit j := by
  have hm : (0xFFFFFF : ℕ).testBit j = true := by
    have := Nat.testBit_two_pow_sub_one 24 j
    simpa [hj] using this
  have h1 := Nat.testBit_and c1 0xFFFFFF j
  have h2 := Nat.testBit_and c2 0xFFFFFF j
  rw [hm, Bool.and_true] at h1 h2
  rw [← h1, ← h2, h]

theorem necx_payload_bits_congr (c1 c2 : ℕ) (h1 : c1 < 4294967296) (h2 : c2 < 4294967296)
    (h : c1 &&& 0xFFFFFF = c2 &&& 0xFFFFFF) : necx_payload_bits c1 = necx_payload_bits c2 := by
  have hb := testBit_of_and_eq c1 c2 h
  unfold necx_payload_bits
  rw [low_byte_bits_congr (c1 >>> 16) (c2 >>> 16) (fun k hk => by
      rw [Nat.testBit_shiftRight, Nat.testBit_shiftRight]
      exact hb _ (by omega)),
    low_byte_bits_congr (c1 >>> 8) (c2 >>> 8) (fun k hk => by
      rw [Nat.testBit_shiftRight, Nat.testBit_shiftRight]
      exact hb _ (by omega)),
    low_byte_bits_congr c1 c2 (fun k hk => hb k (by omega)),
    low_byte_bits_congr (necx.uint32_not c1) (necx.uint32_not c2) (fun k hk => by
      rw [testBit_uint32_not c1 h1 k (by omega), testBit_uint32_not c2 h2 k (by omega),
        hb k (by omega)])]

end ir

namespace ir

open wave spec binary64

theorem nec_quotient :
    (26 : ℚ) ≤ nearest (1000000 / 38000) ∧ nearest (1000000 / 38000) < 26 + 1 := by
  have hx0 : (0 : ℚ) ≤ 1000000 / 38000 := by norm_num
  have hnear := abs_le.1 (nearest_near (1000000 / 38000) hx0 (by norm_num))
  obtain ⟨h1, h2⟩ := hnear
  generalize nearest (1000000 / 38000) = y at h1 h2 ⊢
  constructor <;> linarith

theorem nec_carrier :
    carrier_parameters.carrier_parameters 38000 (1 / 2) = some ⟨26, 13, 13⟩ := by
  exact carrier_parameters_of_exact 38000 (1 / 2) (nearest (1000000 / 38000)) 13 (1 / 2) 13
    26 13 13 (by norm_num) rfl
    (toUInt32_of_floor _ 26 nec_quotient.1 nec_quotient.2 (by norm_num))
    (nearest_eq_of_dyadic _ _ 13 0 (by norm_num) (by norm_num) (by norm_num) (by norm_num))
    (toUInt32_of_floor _ _ (by norm_num) (by norm_num) (by norm_num))
    (nearest_eq_of_dyadic _ _ 1 (-1) (by norm_num) (by norm_num) (by norm_num) (by norm_num))
    (nearest_eq_of_dyadic _ _ 13 0 (by norm_num) (by norm_num) (by norm_num) (by norm_num))
    (toUInt32_of_floor _ _ (by norm_num) (by norm_num) (by norm_num))
theorem nec_wave (pi : pigpio) (pin_number : ℤ) (hpin : 0 ≤ pin_number ∧ pin_number < 32) :
    wave.wave pi pin_number necx.nec_parameters = some (nec_fresh pi pin_number) := by
  have h := nec_carrier
  unfold wave.wave
  simp only [if_pos hpin, necx.nec_parameters, h]
  rfl

theorem nec_logical_bit (v : wave) (b : Bool) (hp : v.parameters_ = necx.nec_parameters)
    (hc : v.carrier_.one_cycle_time ≠ 0) :
    (if b then add_logical_one v else add_logical_zero v) =
      some { v with wave_ := v.wave_ ++ nec_bit v b } := by
  cases b with
  | true =>
    simp only [if_true, add_logical_one, hp, necx.nec_parameters,
      add_carrier_frequency_eq v _ hc, add_gap_eq, nec_bit, Option.bind_eq_bind,
      Option.some_bind, List.append_assoc]
    rfl
  | false =>
    simp only [Bool.false_eq_true, if_false, add_logical_zero, hp, necx.nec_parameters,
      add_carrier_frequency_eq v _ hc, add_gap_eq, nec_bit, Option.bind_eq_bind,
      Option.some_bind, List.append_assoc]
    rfl

theorem nec_logical_bits (bits : List Bool) (v : wave)
    (hp : v.parameters_ = necx.nec_parameters) (hc : v.carrier_.one_cycle_time ≠ 0) :
    add_logical_bits bits v = some { v with wave_ := v.wave_ ++ bits.flatMap (nec_bit v) } := by
  induction bits generalizing v with
  | nil => simp [add_logical_bits]
  | cons b rest ih =>
    have h1 := nec_logical_bit v b hp hc
    have h2 := ih { v with wave_ := v.wave_ ++ nec_bit v b } hp hc
    unfold add_logical_bits at h2 ⊢
    rw [List.foldlM_cons, h1]
    simp only [Option.bind_eq_bind, Option.some_bind, h2, List.flatMap_cons, List.append_assoc]
    rfl

end ir

namespace ir

open wave spec binary64

theorem nec_flatMap_length (bits : List Bool) (w : wave) :
    (bits.flatMap (nec_bit w)).length = bits.length * ((carrier w 562).length + 1) := by
  induction bits with
  | nil => simp
  | cons b rest ih =>
    rw [List.flatMap_cons, List.length_append, ih, List.length_cons, Nat.succ_mul]
    simp only [nec_bit, List.length_append, List.length_singleton]
    omega

theorem necx_payload_bits_length (code : ℕ) : (necx_payload_bits code).length = 32 := by
  simp [necx_payload_bits, low_byte_bits_length]

theorem nec_frame_eq (pi : pigpio) (pin_number : ℤ) (code : ℕ) :
    (nec_fresh pi pin_number).wave_ ++
        carrier (nec_fresh pi pin_number) (nec_fresh pi pin_number).parameters_.leading_pulse ++
        [gap (nec_fresh pi pin_number).parameters_.leading_gap] ++
        (necx_payload_bits code).flatMap (nec_bit (nec_fresh pi pin_number)) ++
        trailing (nec_fresh pi pin_number) =
      nec_timeline (nec_fresh pi pin_number) code := by
  have e0 : (nec_fresh pi pin_number).wave_ = [] := rfl
  rw [e0, List.nil_append]
  rfl

theorem necx_build (pi : pigpio) (gpioWaveCreate pin_number : ℤ) (code : ℕ)
    (hpin : 0 ≤ pin_number ∧ pin_number < 32) :
    necx.necx pi gpioWaveCreate pin_number code =
      some (if gpioWaveCreate < 0 then .error "Wave creation failure" else .ok (),
        { nec_fresh pi pin_number with
          wave_id_ := gpioWaveCreate
          wave_ := nec_timeline (nec_fresh pi pin_number) code }) := by
  have hw0 := nec_wave pi pin_number hpin
  have hc : (nec_fresh pi pin_number).carrier_.one_cycle_time ≠ 0 := by
    show (26 : ℤ) ≠ 0
    decide
  have hhook : necx.add_payload code (framed (nec_fresh pi pin_number)) =
      some { framed (nec_fresh pi pin_number) with
        wave_ := (framed (nec_fresh pi pin_number)).wave_ ++
          (necx_payload_bits code).flatMap (nec_bit (nec_fresh pi pin_number)) } := by
    rw [necx_add_payload_eq]
    exact nec_logical_bits _ _ rfl hc
  have hb := build_fresh pi (necx.add_payload code) gpioWaveCreate (nec_fresh pi pin_number)
    _ rfl hc hhook
  have hn : necx.necx pi gpioWaveCreate pin_number code =
      wave.build pi (necx.add_payload code) gpioWaveCreate (nec_fresh pi pin_number) := by
    unfold necx.necx
    rw [hw0]
    rfl
  rw [hn, hb, nec_frame_eq]

theorem nec_timeline_length (pi : pigpio) (pin_number : ℤ) (code : ℕ) :
    (nec_timeline (nec_fresh pi pin_number) code).length = 2111 := by
  have hlen := nec_flatMap_length (necx_payload_bits code) (nec_fresh pi pin_number)
  have h346 : carrier (nec_fresh pi pin_number) 9000 =
      carrier_cycles (1 <<< pin_number.toNat) 13 13 346 := rfl
  have h21 : carrier (nec_fresh pi pin_number) 562 =
      carrier_cycles (1 <<< pin_number.toNat) 13 13 21 := rfl
  unfold nec_timeline
  simp only [List.length_append, List.length_singleton, hlen, necx_payload_bits_length, h346,
    h21, carrier_cycles_length]

/-- C11: for every 32-bit code, every pin `0..31` and every driver answer, the constructor
`necx` leaves the timeline of the fixed NEC profile: the leading burst for 9000 µs (346 cycles
of 13 µs on, 13 µs off), one gap of 4500 µs, then the encodings of the 32 payload bits in
order, each the carrier burst for 562 µs (21 cycles) immediately followed by one gap pulse
whose delay is 1686 µs for a bit 1 and 562 µs for a bit 0, then one trailing burst for 562 µs
and nothing after it: 2111 pulses in all. -/
theorem necx_timeline (pi : pigpio) (gpioWaveCreate pin_number : ℤ) (code : ℕ)
    (hpin : 0 ≤ pin_number ∧ pin_number < 32) (hcode : code < 4294967296) :
    ∃ r w, wave.wave pi pin_number necx.nec_parameters = some (nec_fresh pi pin_number) ∧
      necx.necx pi gpioWaveCreate pin_number code = some (r, w) ∧
      w.wave_ = carrier (nec_fresh pi pin_number) 9000 ++ [gap 4500] ++
        (necx_payload_bits code).flatMap
          (fun b => carrier (nec_fresh pi pin_number) 562 ++
            [gap (if b then 1686 else 562)]) ++
        carrier (nec_fresh pi pin_number) 562 ∧
      (necx_payload_bits code).length = 32 ∧
      (∀ k, k < 8 → (necx_payload_bits code)[24 + k]? = some (!code.testBit k)) ∧
      carrier (nec_fresh pi pin_number) 9000 =
        carrier_cycles (1 <<< pin_number.toNat) 13 13 346 ∧
      carrier (nec_fresh pi pin_number) 562 =
        carrier_cycles (1 <<< pin_number.toNat) 13 13 21 ∧
      gap 4500 = ⟨0, 0, 4500⟩ ∧ gap 1686 = ⟨0, 0, 1686⟩ ∧ gap 562 = ⟨0, 0, 562⟩ ∧
      w.wave_.length = 2111 := by
  refine ⟨_, _, nec_wave pi pin_number hpin,
    necx_build pi gpioWaveCreate pin_number code hpin, rfl, necx_payload_bits_length code, ?_,
    rfl, rfl, rfl, rfl, rfl, nec_timeline_length pi pin_number code⟩
  intro k hk
  have l1 := low_byte_bits_length (code >>> 16)
  have l2 := low_byte_bits_length (code >>> 8)
  have l3 := low_byte_bits_length code
  unfold necx_payload_bits
  rw [List.getElem?_append_right (by simp [l1, l2, l3])]
  have := low_byte_bits_get (necx.uint32_not code) k hk
  rw [testBit_uint32_not code hcode k (by omega)] at this
  simpa [l1, l2, l3] using this

theorem necx_timeline_witness :
    ((0 : ℤ) ≤ 17 ∧ (17 : ℤ) < 32) ∧ (0x81387 : ℕ) < 4294967296 ∧
      necx_payload_bits 0x81387 =
        low_byte_bits 0x08 ++ low_byte_bits 0x13 ++ low_byte_bits 0x87 ++ low_byte_bits 0x78 ∧
      ∃ r w, wave.wave example_input.pigpio_h 17 necx.nec_parameters =
          some (nec_fresh example_input.pigpio_h 17) ∧
        necx.necx example_input.pigpio_h 5 17 0x81387 = some (r, w) ∧
        w.wave_ = carrier (nec_fresh example_input.pigpio_h 17) 9000 ++ [gap 4500] ++
          (necx_payload_bits 0x81387).flatMap
            (fun b => carrier (nec_fresh example_input.pigpio_h 17) 562 ++
              [gap (if b then 1686 else 562)]) ++
          carrier (nec_fresh example_input.pigpio_h 17) 562 ∧
        (necx_payload_bits 0x81387).length = 32 ∧
        (∀ k, k < 8 →
          (necx_payload_bits 0x81387)[24 + k]? = some (!(0x81387 : ℕ).testBit k)) ∧
        carrier (nec_fresh example_input.pigpio_h 17) 9000 =
          carrier_cycles (1 <<< (17 : ℤ).toNat) 13 13 346 ∧
        carrier (nec_fresh example_input.pigpio_h 17) 562 =
          carrier_cycles (1 <<< (17 : ℤ).toNat) 13 13 21 ∧
        gap 4500 = ⟨0, 0, 4500⟩ ∧ gap 1686 = ⟨0, 0, 1686⟩ ∧ gap 562 = ⟨0, 0, 562⟩ ∧
        w.wave_.length = 2111 :=
  ⟨by decide, by decide, by decide,
    necx_timeline example_input.pigpio_h 5 17 0x81387 (by decide) (by decide)⟩

end ir

namespace ir

open wave spec binary64

/-- C12: the extended NEC frame depends only on the low 24 bits of the code: for every pin,
every driver answer and every two 32-bit codes that agree on `code & 0xFFFFFF`, the constructor
`necx` ends in the same way with the same object, hence with the same timeline pulse for
pulse; bits 31..24 are never emitted. -/
theorem necx_low_24_bits (pi : pigpio) (gpioWaveCreate pin_number : ℤ) (c1 c2 : ℕ)
    (h1 : c1 < 4294967296) (h2 : c2 < 4294967296)
    (h : c1 &&& 0xFFFFFF = c2 &&& 0xFFFFFF) :
    necx.necx pi gpioWaveCreate pin_number c1 = necx.necx pi gpioWaveCreate pin_number c2 ∧
      necx_payload_bits c1 = necx_payload_bits c2 := by
  have hbits := necx_payload_bits_congr c1 c2 h1 h2 h
  have hhook : necx.add_payload c1 = necx.add_payload c2 := by
    funext w
    rw [necx_add_payload_eq, necx_add_payload_eq, hbits]
  refine ⟨?_, hbits⟩
  unfold necx.necx
  rw [hhook]

theorem necx_low_24_bits_witness :
    (0x81387 : ℕ) < 4294967296 ∧ (0xAB081387 : ℕ) < 4294967296 ∧
      (0x81387 : ℕ) &&& 0xFFFFFF = 0xAB081387 &&& 0xFFFFFF ∧
      (necx.necx example_input.pigpio_h 5 17 0x81387 =
          necx.necx example_input.pigpio_h 5 17 0xAB081387 ∧
        necx_payload_bits 0x81387 = necx_payload_bits 0xAB081387) :=
  ⟨by decide, by decide, by decide,
    necx_low_24_bits example_input.pigpio_h 5 17 0x81387 0xAB081387 (by decide) (by decide)
      (by decide)⟩

end ir

/-! ## Duration of a carrier burst -/

namespace ir

open wave spec binary64

theorem carrier_cycles_delay (pin_bit on_duration off_duration n : ℕ) :
    ((carrier_cycles pin_bit on_duration off_duration n).map gpioPulse_t.usDelay).sum =
      n * (on_duration + off_duration) := by
  induction n with
  | zero => simp [carrier_cycles]
  | succ k ih =>
    have h : carrier_cycles pin_bit on_duration off_duration (k + 1) =
        (⟨pin_bit, 0, on_duration⟩ : gpioPulse_t) :: ⟨0, pin_bit, off_duration⟩ ::
          carrier_cycles pin_bit on_duration off_duration k := by
      simp [carrier_cycles, List.replicate_succ]
    rw [h, List.map_cons, List.map_cons, List.sum_cons, List.sum_cons, ih]
    ring

theorem to_uint32_le (q : ℤ) (hq : 0 ≤ q) : (to_uint32 q : ℤ) ≤ q := by
  rw [to_uint32_cast]
  have h1 : q % 4294967296 = q - 4294967296 * (q / 4294967296) := by
    have := Int.emod_add_ediv q 4294967296
    omega
  have h2 : 0 ≤ q / 4294967296 := Int.ediv_nonneg hq (by norm_num)
  omega

theorem quarter_carrier :
    carrier_parameters.carrier_parameters 200000 (1 / 4) = some ⟨5, 1, 3⟩ :=
  carrier_parameters_of_exact 200000 (1 / 4) 5 (5 / 4) (3 / 4) (15 / 4) 5 1 3 (by norm_num)
    (nearest_eq_of_dyadic _ _ 5 0 (by norm_num) (by norm_num) (by norm_num) (by norm_num))
    (toUInt32_of_floor _ _ (by norm_num) (by norm_num) (by norm_num))
    (nearest_eq_of_dyadic _ _ 5 (-2) (by norm_num) (by norm_num) (by norm_num) (by norm_num))
    (toUInt32_of_floor _ _ (by norm_num) (by norm_num) (by norm_num))
    (nearest_eq_of_dyadic _ _ 3 (-2) (by norm_num) (by norm_num) (by norm_num) (by norm_num))
    (nearest_eq_of_dyadic _ _ 15 (-2) (by norm_num) (by norm_num) (by norm_num) (by norm_num))
    (toUInt32_of_floor _ _ (by norm_num) (by norm_num) (by norm_num))

/-- The quarter-duty example wave is the one the constructor returns. -/
theorem quarter_wave_constructed :
    wave.wave example_input.pigpio_h 4 example_input.quarter_parameters =
      some example_input.quarter_wave := by
  have h := quarter_carrier
  unfold wave.wave
  simp only [example_input.quarter_parameters, example_input.small_parameters, h]
  rfl

/-- C13: for every frequency and every duty cycle strictly between 0 and 1 for which the
constructor returns a carrier with `one_cycle_time > 0`,
`on_state_duration + off_state_duration ≤ one_cycle_time`; and for every wave with that carrier
and every non-negative duration `d`, `add_carrier_frequency(d)` returns and the delays of the
pulses it appends add up to at most `d` microseconds. -/
theorem carrier_burst_within (f d : ℚ) (cp : carrier_parameters) (w : wave)
    (duration : duration_t) (hd0 : 0 < d) (hd1 : d < 1)
    (hcp : carrier_parameters.carrier_parameters f d = some cp)
    (hc : 0 < cp.one_cycle_time) (hw : w.carrier_ = cp) (hdur : 0 ≤ duration) :
    (cp.on_state_duration : ℤ) + cp.off_state_duration ≤ cp.one_cycle_time ∧
      ∃ burst : List gpioPulse_t,
        add_carrier_frequency w duration = some { w with wave_ := w.wave_ ++ burst } ∧
        (((burst.map gpioPulse_t.usDelay).sum : ℕ) : ℤ) ≤ duration := by
  have hsum := carrier_parameters_sum_le f d cp hd0 hd1 hcp
  subst hw
  refine ⟨hsum, _, add_carrier_frequency_eq w duration hc.ne', ?_⟩
  unfold carrier
  rw [carrier_cycles_delay]
  push_cast
  have hq : 0 ≤ duration / w.carrier_.one_cycle_time := Int.ediv_nonneg hdur hc.le
  have hn := to_uint32_le (Int.tdiv duration w.carrier_.one_cycle_time)
    (by rw [Int.tdiv_eq_ediv hdur hc.le]; exact hq)
  rw [Int.tdiv_eq_ediv hdur hc.le] at hn ⊢
  have hmul := Int.ediv_mul_le duration hc.ne'
  have hn0 : (0 : ℤ) ≤ (to_uint32 (duration / w.carrier_.one_cycle_time) : ℤ) :=
    Int.natCast_nonneg _
  have hs0 : (0 : ℤ) ≤ (w.carrier_.on_state_duration : ℤ) + w.carrier_.off_state_duration := by
    positivity
  calc (to_uint32 (duration / w.carrier_.one_cycle_time) : ℤ) *
        ((w.carrier_.on_state_duration : ℤ) + w.carrier_.off_state_duration)
      ≤ (to_uint32 (duration / w.carrier_.one_cycle_time) : ℤ) * w.carrier_.one_cycle_time :=
        mul_le_mul_of_nonneg_left hsum hn0
    _ ≤ duration / w.carrier_.one_cycle_time * w.carrier_.one_cycle_time :=
        mul_le_mul_of_nonneg_right hn hc.le
    _ ≤ duration := hmul

theorem carrier_burst_within_witness :
    (0 : ℚ) < 1 / 4 ∧ (1 / 4 : ℚ) < 1 ∧
      carrier_parameters.carrier_parameters 200000 (1 / 4) = some ⟨5, 1, 3⟩ ∧
      (0 : ℤ) < (⟨5, 1, 3⟩ : carrier_parameters).one_cycle_time ∧
      example_input.quarter_wave.carrier_ = ⟨5, 1, 3⟩ ∧ (0 : ℤ) ≤ 12 ∧
      (((⟨5, 1, 3⟩ : carrier_parameters).on_state_duration : ℤ) +
          (⟨5, 1, 3⟩ : carrier_parameters).off_state_duration ≤
          (⟨5, 1, 3⟩ : carrier_parameters).one_cycle_time ∧
        ∃ burst : List gpioPulse_t,
          add_carrier_frequency example_input.quarter_wave 12 =
            some { example_input.quarter_wave with
              wave_ := example_input.quarter_wave.wave_ ++ burst } ∧
          (((burst.map gpioPulse_t.usDelay).sum : ℕ) : ℤ) ≤ 12) :=
  ⟨by norm_num, by norm_num, quarter_carrier, by decide, rfl, by decide,
    carrier_burst_within 200000 (1 / 4) ⟨5, 1, 3⟩ example_input.quarter_wave 12 (by norm_num)
      (by norm_num) quarter_carrier (by decide) rfl (by decide)⟩

end ir

/-! ## Pins touched by the timeline -/

namespace ir

open wave spec binary64

theorem only_pin_of_mem_carrier_cycles (b on_duration off_duration n : ℕ) (p : gpioPulse_t)
    (hp : p ∈ carrier_cycles b on_duration off_duration n) : only_pin b p := by
  induction n with
  | zero => simp [carrier_cycles] at hp
  | succ k ih =>
    have h : carrier_cycles b on_duration off_duration (k + 1) =
        (⟨b, 0, on_duration⟩ : gpioPulse_t) :: ⟨0, b, off_duration⟩ ::
          carrier_cycles b on_duration off_duration k := by
      simp [carrier_cycles, List.replicate_succ]
    rw [h, List.mem_cons, List.mem_cons] at hp
    rcases hp with rfl | rfl | hp
    · exact Or.inl ⟨rfl, rfl⟩
    · exact Or.inr (Or.inl ⟨rfl, rfl⟩)
    · exact ih hp

theorem only_pin_add_carrier_frequency (b : ℕ) (w w1 : wave) (duration : duration_t)
    (hb : w.pin_bit_ = b) (hw : ∀ p ∈ w.wave_, only_pin b p)
    (h : add_carrier_frequency w duration = some w1) :
    (w1.pin_bit_ = b ∧ ∀ p ∈ w1.wave_, only_pin b p) ∧
      w1.parameters_ = w.parameters_ := by
  have hc : w.carrier_.one_cycle_time ≠ 0 := by
    intro h0
    simp [add_carrier_frequency, carrier_parameters.num_cycles, h0] at h
  rw [add_carrier_frequency_eq w duration hc] at h
  cases h
  refine ⟨⟨hb, ?_⟩, rfl⟩
  intro p hp
  rcases List.mem_append.1 hp with hp | hp
  · exact hw p hp
  · rw [← hb]
    exact only_pin_of_mem_carrier_cycles _ _ _ _ p hp

theorem only_pin_add_gap (b : ℕ) (w : wave) (duration : duration_t)
    (hb : w.pin_bit_ = b) (hw : ∀ p ∈ w.wave_, only_pin b p) :
    (add_gap w duration).pin_bit_ = b ∧ ∀ p ∈ (add_gap w duration).wave_, only_pin b p := by
  refine ⟨hb, ?_⟩
  intro p hp
  rw [add_gap_eq] at hp
  rcases List.mem_append.1 hp with hp | hp
  · exact hw p hp
  · rw [List.mem_singleton] at hp
    rw [hp]
    exact Or.inr (Or.inr ⟨rfl, rfl⟩)

theorem only_pin_logical (b : ℕ) (w w1 : wave) (burst_first : Bool)
    (burst burst_late gap_before : duration_t) (gap_of : wave → duration_t)
    (hb : w.pin_bit_ = b) (hw : ∀ p ∈ w.wave_, only_pin b p)
    (h : (if burst_first then
        (add_carrier_frequency w burst).bind (fun v => some (add_gap v (gap_of v)))
      else add_carrier_frequency (add_gap w gap_before) burst_late) = some w1) :
    w1.pin_bit_ = b ∧ ∀ p ∈ w1.wave_, only_pin b p := by
  split at h
  · cases h1 : add_carrier_frequency w burst with
    | none => simp [h1] at h
    | some v =>
      simp only [h1, Option.some_bind, Option.some.injEq] at h
      rw [← h]
      have hv := (only_pin_add_carrier_frequency b w v _ hb hw h1).1
      exact only_pin_add_gap b v _ hv.1 hv.2
  · have hg := only_pin_add_gap b w gap_before hb hw
    exact (only_pin_add_carrier_frequency b _ w1 _ hg.1 hg.2 h).1

theorem only_pin_appender (b : ℕ) (w w1 : wave) (c : appender_call)
    (hb : w.pin_bit_ = b) (hw : ∀ p ∈ w.wave_, only_pin b p)
    (h : c.run w = some w1) : w1.pin_bit_ = b ∧ ∀ p ∈ w1.wave_, only_pin b p := by
  cases c with
  | add_carrier_frequency duration =>
    exact (only_pin_add_carrier_frequency b w w1 duration hb hw h).1
  | add_gap duration =>
    simp only [appender_call.run, Option.some.injEq] at h
    rw [← h]
    exact only_pin_add_gap b w duration hb hw
  | add_logical_zero =>
    exact only_pin_logical b w w1 w.parameters_.logical_zero.burst_first
      w.parameters_.logical_zero.burst_duration w.parameters_.logical_zero.burst_duration
      w.parameters_.logical_zero.gap_duration
      (fun v => v.parameters_.logical_zero.gap_duration) hb hw h
  | add_logical_one =>
    exact only_pin_logical b w w1 w.parameters_.logical_one.burst_first
      w.parameters_.logical_one.burst_duration w.parameters_.logical_one.burst_duration
      w.parameters_.logical_one.gap_duration
      (fun v => v.parameters_.logical_one.gap_duration) hb hw h

theorem only_pin_run_hook (b : ℕ) (calls : List appender_call) (w w1 : wave)
    (hb : w.pin_bit_ = b) (hw : ∀ p ∈ w.wave_, only_pin b p)
    (h : run_hook calls w = some w1) : w1.pin_bit_ = b ∧ ∀ p ∈ w1.wave_, only_pin b p := by
  induction calls generalizing w with
  | nil =>
    simp only [run_hook, List.foldlM_nil, pure, Option.some.injEq] at h
    rw [← h]
    exact ⟨hb, hw⟩
  | cons c rest ih =>
    unfold run_hook at h
    rw [List.foldlM_cons] at h
    cases h1 : c.run w with
    | none => simp [h1] at h
    | some v =>
      simp only [h1, Option.bind_eq_bind, Option.some_bind] at h
      have hv := only_pin_appender b w v c hb hw h1
      exact ih v hv.1 hv.2 h

theorem only_pin_build (b : ℕ) (pi : pigpio) (add_payload : wave → Option wave)
    (gpioWaveCreate : ℤ) (w w1 : wave) (r : Except String Unit)
    (hhook : ∀ v v1 : wave, v.pin_bit_ = b → (∀ p ∈ v.wave_, only_pin b p) →
      add_payload v = some v1 → v1.pin_bit_ = b ∧ ∀ p ∈ v1.wave_, only_pin b p)
    (hb : w.pin_bit_ = b) (hw : ∀ p ∈ w.wave_, only_pin b p)
    (h : build pi add_payload gpioWaveCreate w = some (r, w1)) :
    w1.pin_bit_ = b ∧ ∀ p ∈ w1.wave_, only_pin b p := by
  unfold build at h
  split at h
  · simp only [Option.some.injEq, Prod.mk.injEq] at h
    rw [← h.2]
    exact ⟨hb, hw⟩
  · cases h1 : add_carrier_frequency w w.parameters_.leading_pulse with
    | none => simp [h1] at h
    | some v1 =>
      simp only [h1, Option.bind_eq_bind, Option.some_bind] at h
      have i1 := (only_pin_add_carrier_frequency b w v1 _ hb hw h1).1
      have i2 := only_pin_add_gap b v1 v1.parameters_.leading_gap i1.1 i1.2
      cases h2 : add_payload (add_gap v1 v1.parameters_.leading_gap) with
      | none => simp [h2] at h
      | some v2 =>
        simp only [h2, Option.some_bind] at h
        have i3 := hhook _ v2 i2.1 i2.2 h2
        cases ht : v2.parameters_.trailing_pulse with
        | none =>
          simp only [ht] at h
          split at h
          · simp only [Option.some.injEq, Prod.mk.injEq] at h
            rw [← h.2]
            exact i3
          · simp only [Option.some.injEq, Prod.mk.injEq] at h
            rw [← h.2]
            exact i3
        | some t =>
          simp only [ht] at h
          cases h3 : add_carrier_frequency v2 t with
          | none => simp [h3] at h
          | some v3 =>
            simp only [h3, Option.some_bind] at h
            have i4 := (only_pin_add_carrier_frequency b v2 v3 _ i3.1 i3.2 h3).1
            split at h
            · simp only [Option.some.injEq, Prod.mk.injEq] at h
              rw [← h.2]
              exact i4
            · simp only [Option.some.injEq, Prod.mk.injEq] at h
              rw [← h.2]
              exact i4

theorem only_pin_wave_call (b : ℕ) (pi : pigpio) (c : wave_call) (w w1 : wave)
    (hb : w.pin_bit_ = b) (hw : ∀ p ∈ w.wave_, only_pin b p)
    (h : c.run pi w = some w1) : w1.pin_bit_ = b ∧ ∀ p ∈ w1.wave_, only_pin b p := by
  cases c with
  | appender a => exact only_pin_appender b w w1 a hb hw h
  | build hook gpioWaveCreate =>
    simp only [wave_call.run, Option.map_eq_some', Prod.exists, exists_eq_right] at h
    obtain ⟨r, hr⟩ := h
    exact only_pin_build b pi (run_hook hook) gpioWaveCreate w w1 r
      (fun v v1 hv1 hv2 hv => only_pin_run_hook b hook v v1 hv1 hv2 hv) hb hw hr

theorem only_pin_run_calls (b : ℕ) (pi : pigpio) (calls : List wave_call) (w w1 : wave)
    (hb : w.pin_bit_ = b) (hw : ∀ p ∈ w.wave_, only_pin b p)
    (h : run_calls pi calls w = some w1) : w1.pin_bit_ = b ∧ ∀ p ∈ w1.wave_, only_pin b p := by
  induction calls generalizing w with
  | nil =>
    simp only [run_calls, List.foldlM_nil, pure, Option.some.injEq] at h
    rw [← h]
    exact ⟨hb, hw⟩
  | cons c rest ih =>
    unfold run_calls at h
    rw [List.foldlM_cons] at h
    cases h1 : c.run pi w with
    | none => simp [h1] at h
    | some v =>
      simp only [h1, Option.bind_eq_bind, Option.some_bind] at h
      have hv := only_pin_wave_call b pi c w v hb hw h1
      exact ih v hv.1 hv.2 h

theorem wave_constructed (pi : pigpio) (pin_number : ℤ) (parameters : wave_parameters)
    (w0 : wave) (h : wave.wave pi pin_number parameters = some w0) :
    (0 ≤ pin_number ∧ pin_number < 32) ∧ w0.pin_bit_ = 1 <<< pin_number.toNat ∧
      w0.wave_ = [] := by
  unfold wave.wave at h
  by_cases hpin : 0 ≤ pin_number ∧ pin_number < 32
  · simp only [if_pos hpin, Option.bind_eq_bind, Option.some_bind] at h
    cases hc : carrier_parameters.carrier_parameters parameters.frequency_hz
        parameters.duty_cycle with
    | none => simp [hc] at h
    | some c =>
      simp only [hc, Option.some_bind] at h
      cases h
      exact ⟨hpin, rfl, rfl⟩
  · simp [if_neg hpin] at h

/-- C14: every pulse of a wave's timeline touches only the configured IR pin. For a wave
constructed on `pin_number`, after any sequence of `add_carrier_frequency`, `add_gap`,
`add_logical_zero`, `add_logical_one` and `build` calls (the payload hooks being sequences of
the four appenders), each pulse has (gpioOn, gpioOff) equal to (pin_bit, 0), (0, pin_bit) or
(0, 0) with `pin_bit = 1 << pin_number`; no pulse asserts and clears at once, and no bit of
another pin is set in either mask. -/
theorem timeline_only_pin (pi : pigpio) (pin_number : ℤ) (parameters : wave_parameters)
    (w0 w : wave) (calls : List wave_call)
    (hctor : wave.wave pi pin_number parameters = some w0)
    (hrun : run_calls pi calls w0 = some w) :
    w.pin_bit_ = 1 <<< pin_number.toNat ∧
      ∀ p ∈ w.wave_,
        only_pin (1 <<< pin_number.toNat) p ∧ (p.gpioOn = 0 ∨ p.gpioOff = 0) ∧
        ∀ k, k ≠ pin_number.toNat → p.gpioOn.testBit k = false ∧ p.gpioOff.testBit k = false := by
  obtain ⟨-, hb, hempty⟩ := wave_constructed pi pin_number parameters w0 hctor
  have hinv := only_pin_run_calls (1 <<< pin_number.toNat) pi calls w0 w hb
    (by rw [hempty]; intro p hp; simp at hp) hrun
  refine ⟨hinv.1, fun p hp => ?_⟩
  have hp1 := hinv.2 p hp
  have hbit : ∀ k, k ≠ pin_number.toNat → (1 <<< pin_number.toNat).testBit k = false := by
    intro k hk
    rw [Nat.one_shiftLeft, Nat.testBit_two_pow]
    simpa using fun h => hk h.symm
  refine ⟨hp1, ?_, fun k hk => ?_⟩
  · rcases hp1 with h | h | h
    · exact Or.inr h.2
    · exact Or.inl h.1
    · exact Or.inl h.1
  · rcases hp1 with h | h | h
    · rw [h.1, h.2]
      exact ⟨hbit k hk, Nat.zero_testBit k⟩
    · rw [h.1, h.2]
      exact ⟨Nat.zero_testBit k, hbit k hk⟩
    · rw [h.1, h.2]
      exact ⟨Nat.zero_testBit k, Nat.zero_testBit k⟩

theorem timeline_only_pin_witness :
    wave.wave example_input.pigpio_h 4 example_input.small_parameters =
        some example_input.fresh_wave ∧
      run_calls example_input.pigpio_h example_input.some_calls example_input.fresh_wave =
        some example_input.after_calls ∧
      (example_input.after_calls.pin_bit_ = 1 <<< (4 : ℤ).toNat ∧
        ∀ p ∈ example_input.after_calls.wave_,
          only_pin (1 <<< (4 : ℤ).toNat) p ∧ (p.gpioOn = 0 ∨ p.gpioOff = 0) ∧
          ∀ k, k ≠ (4 : ℤ).toNat →
            p.gpioOn.testBit k = false ∧ p.gpioOff.testBit k = false) :=
  ⟨fresh_wave_constructed, rfl,
    timeline_only_pin example_input.pigpio_h 4 example_input.small_parameters
      example_input.fresh_wave example_input.after_calls example_input.some_calls
      fresh_wave_constructed rfl⟩

end ir

/-! ## The first build on a carrier with a zero cycle time -/

namespace ir

open wave spec binary64

/-- The 2 MHz example wave is the one the constructor returns. -/
theorem fast_wave_constructed :
    wave.wave example_input.pigpio_h 4 example_input.fast_parameters =
      some example_input.fast_wave := by
  have h : carrier_parameters.carrier_parameters 2000000 (1 / 2) = some ⟨0, 0, 0⟩ :=
    zero_carrier 2000000 (1 / 2) 1 (by norm_num) (by norm_num) (by norm_num) (by norm_num)
      (by norm_num)
  unfold wave.wave
  simp only [example_input.fast_parameters, example_input.small_parameters, h]
  rfl

/-- C2 (counterexample): the wave parameters with a 2 MHz carrier are accepted by the
constructor, with a cycle time of 0 µs; on that fresh, empty wave the first `build()` divides by
zero in `num_cycles` for the leading burst, whatever the payload hook and the driver answer: it
produces no timeline. -/
theorem build_zero_cycle_counterexample :
    wave.wave example_input.pigpio_h 4 example_input.fast_parameters =
        some example_input.fast_wave ∧
      example_input.fast_wave.wave_id_ = example_input.pigpio_h.PI_NO_WAVEFORM_ID ∧
      example_input.fast_wave.wave_ = [] ∧
      example_input.fast_wave.carrier_.num_cycles
        example_input.fast_wave.parameters_.leading_pulse = none ∧
      (∀ (add_payload : wave → Option wave) (gpioWaveCreate : ℤ),
        build example_input.pigpio_h add_payload gpioWaveCreate example_input.fast_wave =
          none) ∧
      ¬ ∃ r w1, build example_input.pigpio_h example_input.one_bit_hook 3
          example_input.fast_wave = some (r, w1) := by
  have hb : ∀ (add_payload : wave → Option wave) (gpioWaveCreate : ℤ),
      build example_input.pigpio_h add_payload gpioWaveCreate example_input.fast_wave =
        none := by
    intro add_payload gpioWaveCreate
    have h1 : add_carrier_frequency example_input.fast_wave
        example_input.fast_wave.parameters_.leading_pulse = none := rfl
    unfold build
    rw [if_neg (by decide), h1]
    rfl
  refine ⟨fast_wave_constructed, rfl, rfl, rfl, hb, ?_⟩
  rintro ⟨r, w1, h⟩
  rw [hb] at h
  exact Option.noConfusion h

end ir
